import Mathlib

/-!
# gospell: the dictionary trie and the checkers

A shallow embedding of `trie.go` (type `Trie`, `Trie.Contains`, `Trie.Alphabet`,
`NewTrie`) together with the checker family that `check/checker_test.go`
exercises. The checkers themselves are not among the source files: they are
modelled from the specification, and the tables of the tests are kept as data to
compare the models with.

Conventions of the embedding:

* a Go `rune` is an `Int`; a Go `string` is represented by the rune sequence
  `[]rune(w)` that both `NewTrie` and the checkers immediately convert it to;
* a `*Trie` that may be `nil` is an `Option Trie`; the fixed array
  `[28]*Trie` is a function `Fin 28 → Option Trie`;
* the trie is a tree without sharing, so the in-place pointer updates of
  `NewTrie` are rendered as functional updates along the walked path;
* an index expression `children[idx]` with `idx` outside the array is a
  run-time panic of Go; it is kept as the outcome `Run.panics`.
-/

namespace Gospell

/-! ## Data model -/

/-- A Go `rune` (an `int32` code point). -/
abbrev Rune := Int

/-- Modelled from the spec: the type `Alphabet` is declared outside `trie.go`; only
its method `Index(rune) (idx, ok)` is used there. Spec §3 and §4.1 give it as a
lookup from a character to a zero-based index that fails for a character outside
the alphabet: `Index r = some idx` stands for `(idx, true)` and `none` for
`ok = false`. `Letters` is the ordered set of characters the alphabet was declared
with, which the checkers enumerate through `Trie.Alphabet()` (§4.2). -/
structure Alphabet where
  Index : Rune → Option Nat
  Letters : List Rune

/-- The struct `Trie` of `trie.go`: the alphabet copied into every node, the
hardcoded array of 28 child pointers and the `terminates` flag. -/
inductive Trie where
  | mk (alphabet : Alphabet) (children : Fin 28 → Option Trie) (terminates : Bool) : Trie

/-- Field `alphabet` of a node. -/
def Trie.alphabet : Trie → Alphabet
  | .mk a _ _ => a

/-- Field `children` of a node. -/
def Trie.children : Trie → Fin 28 → Option Trie
  | .mk _ c _ => c

/-- Field `terminates` of a node. -/
def Trie.terminates : Trie → Bool
  | .mk _ _ t => t

/-- The method `Alphabet()` of `trie.go`. -/
def Trie.Alphabet (t : Trie) : Gospell.Alphabet := t.alphabet

/-- The composite literal `&Trie{alphabet: alphabet}`: all children `nil`,
`terminates` false. -/
def Trie.fresh (alphabet : Gospell.Alphabet) : Trie :=
  .mk alphabet (fun _ => none) false

/-- Outcome of running a Go function: it panics (index out of range) or it
returns a value. -/
inductive Run (α : Type) where
  | panics : Run α
  | returns (a : α) : Run α
  deriving DecidableEq, Repr

/-! ## `Trie.Contains` -/

/-- The method `Contains` of `trie.go`: the loop over `word` is the recursion on
the list; `t = child` is the recursive call on the child, whose own `alphabet`
field translates the next rune. -/
def Trie.Contains : Trie → List Rune → Run Bool
  | t, [] => .returns t.terminates
  | t, l :: word =>
    match t.alphabet.Index l with
    | none => .returns false
    | some idx =>
      if h : idx < 28 then
        match t.children ⟨idx, h⟩ with
        | none => .returns false
        | some child => child.Contains word
      else .panics

/-! ## `NewTrie` -/

/-- Outcome of the inner loop of `NewTrie` over the letters of one word. -/
inductive Inserted where
  | outOfRange : Inserted
  | unknownChar : Inserted
  | done (t : Trie) : Inserted

/-- The inner loop of `NewTrie` (`for _, l := range letters`) followed by
`currentTrie.terminates = true`, started at node `currentTrie`; the result is that
node after the updates made below it. -/
def insertLetters (alphabet : Alphabet) : Trie → List Rune → Inserted
  | .mk al ch _, [] => .done (.mk al ch true)
  | .mk al ch tm, l :: letters =>
    match alphabet.Index l with
    | none => .unknownChar
    | some idx =>
      if h : idx < 28 then
        let next : Trie :=
          match ch ⟨idx, h⟩ with
          | none => Trie.fresh alphabet
          | some child => child
        match insertLetters alphabet next letters with
        | .done c => .done (.mk al (fun j => if j = ⟨idx, h⟩ then some c else ch j) tm)
        | .outOfRange => .outOfRange
        | .unknownChar => .unknownChar
      else .outOfRange

/-- The message of the error `NewTrie` returns. -/
def unknownCharError : String := "unicode char '%c' not found in alphabet."

/-- The outer loop of `NewTrie` (`for _, w := range words`) on the trie built so
far; the pair is `(*Trie, error)`. -/
def NewTrie.loop (alphabet : Alphabet) : Trie → List (List Rune) → Run (Option Trie × Option String)
  | trie, [] => .returns (some trie, none)
  | trie, w :: words =>
    match insertLetters alphabet trie w with
    | .outOfRange => .panics
    | .unknownChar => .returns (none, some unknownCharError)
    | .done t => NewTrie.loop alphabet t words

/-- The function `NewTrie` of `trie.go`. -/
def NewTrie (words : List (List Rune)) (alphabet : Alphabet) : Run (Option Trie × Option String) :=
  NewTrie.loop alphabet (Trie.fresh alphabet) words

/-! ## Rune sequences, alphabets and the fixtures of `check/checker_test.go` -/

/-- The runes of a string literal, as `[]rune(s)`. -/
def runes (s : String) : List Rune := s.toList.map (fun c => (c.toNat : Int))

/-- The list without its repeated elements: of equal elements the first is kept,
and the order of first occurrences is preserved. -/
def dedupFirst {α : Type} [DecidableEq α] : List α → List α
  | [] => []
  | x :: xs => x :: (dedupFirst xs).filter (fun y => y ≠ x)

/-- An alphabet built from a string: each character gets the position of its
first occurrence (`NewAlphabet("1234")` in the tests). -/
def alphabetOf (s : String) : Alphabet :=
  ⟨fun r => let i := (runes s).indexOf r; if i < (runes s).length then some i else none,
    dedupFirst (runes s)⟩

/-- The variable `alphabet` of the test file. -/
def testAlphabet : Alphabet := alphabetOf "1234"

/-- The variable `words` of the test file. -/
def testWords : List (List Rune) := [runes "1", runes "12", runes "123", runes "1234"]

/-- The alphabet of 29 distinct characters "abcdefghijklmnopqrstuvwxyz012": one more
than `children` has slots; '2' gets index 28. -/
def wideAlphabet : Alphabet := alphabetOf "abcdefghijklmnopqrstuvwxyz012"

/-! ## The checkers of package `check`

Only `checker_test.go` of that package is among the sources: the checkers below are
modelled from spec §4.3 to §4.5, with the names the tests use. -/

/-- A word handed to a checker, as its rune sequence. -/
abbrev Word := List Rune

/-- The pair `(misspelled, suggestions)` a checker returns. -/
abbrev Verdict := Bool × List Word

/-- The interface `Checker` of the tests, `checker.IsMisspelled(word, dict)`: a
function from the word and the dictionary to the verdict (spec §4.3), which panics
where a call of `Contains` it makes does. -/
abbrev Checker := Word → Trie → Run Verdict

/-- The variable `dict` of `runTests`: the trie of the test words over the test
alphabet, built here by `NewTrie` of `trie.go`. -/
def testDict : Trie :=
  match NewTrie testWords testAlphabet with
  | .returns (some t, _) => t
  | _ => Trie.fresh testAlphabet

/-- Modelled from the spec: the child of a node for a character, which the search of
spec §4.4 moves to ("maps to an existing child of the current node"). It is the slot
`children[idx]` for the index of the character, as `Contains` reads it; a character
outside the alphabet has no child, and since the array of spec §3 has one slot per
alphabet index, an index outside the 28 slots counts as a missing child. -/
def Trie.child (t : Trie) (r : Rune) : Option Trie :=
  match t.alphabet.Index r with
  | none => none
  | some idx => if h : idx < 28 then t.children ⟨idx, h⟩ else none

/-- Modelled from the spec: `MinLengthChecker(n)`, the length gate of spec §4.3, whose
code is not among the sources: `misspelled = length(word) >= threshold`, no
suggestions, the dictionary ignored. -/
def MinLengthChecker (n : Int) : Checker :=
  fun word _ => .returns (decide (n ≤ (word.length : Int)), [])

/-- Modelled from the spec: `StrictChecker{}`, the exact-match checker of spec §4.3,
whose code is not among the sources: `misspelled = !trie.contains(word)`, no
suggestions. -/
def StrictChecker : Checker :=
  fun word dict =>
    match dict.Contains word with
    | .panics => .panics
    | .returns b => .returns (!b, [])

/-- The configuration of the bounded fuzzy checker, with the field names of the
composite literals in the tests (`DeltaChecker{AllowedIns: 1, AllowedDel: 1,
AllowedSwaps: 1}`); a field left out is zero. Spec §4.4: four independent
non-negative budgets. -/
structure DeltaChecker where
  AllowedIns : Nat
  AllowedDel : Nat
  AllowedSwaps : Nat
  AllowedMods : Nat
  deriving DecidableEq, Repr

/-- Modelled from the spec: the bounded search of spec §4.4 (step 2), whose code is
not among the sources. A state is the current trie node, the rest of the word
(the position), and the remaining budgets `b`; `pre` is the dictionary prefix
spelled by the node. The terminal words are listed in discovery order: the terminal
test first, then the free match, substitution, insertion, deletion and swap, the
children tried in the order of the alphabet's letters. `fuel` bounds the depth of
the exploration. -/
def DeltaChecker.search (letters : List Rune) :
    Nat → Trie → Word → Word → DeltaChecker → List Word
  | 0, _, _, _, _ => []
  | fuel + 1, node, pre, rest, b =>
    (if rest = [] ∧ node.terminates = true then [pre] else []) ++
    (match rest with
      | c :: rest' =>
        match node.child c with
        | some n => search letters fuel n (pre ++ [c]) rest' b
        | none => []
      | [] => []) ++
    (match rest with
      | c :: rest' =>
        if 0 < b.AllowedMods then
          letters.flatMap (fun x =>
            if x = c then [] else
            match node.child x with
            | some n =>
              search letters fuel n (pre ++ [x]) rest' { b with AllowedMods := b.AllowedMods - 1 }
            | none => [])
        else []
      | [] => []) ++
    (if 0 < b.AllowedIns then
      letters.flatMap (fun x =>
        match node.child x with
        | some n =>
          search letters fuel n (pre ++ [x]) rest { b with AllowedIns := b.AllowedIns - 1 }
        | none => [])
     else []) ++
    (match rest with
      | _ :: rest' =>
        if 0 < b.AllowedDel then
          search letters fuel node pre rest' { b with AllowedDel := b.AllowedDel - 1 }
        else []
      | [] => []) ++
    (match rest with
      | c :: d :: rest' =>
        if 0 < b.AllowedSwaps then
          match node.child d with
          | some n =>
            match n.child c with
            | some m =>
              search letters fuel m (pre ++ [d, c]) rest'
                { b with AllowedSwaps := b.AllowedSwaps - 1 }
            | none => []
          | none => []
        else []
      | _ => [])

/-- Modelled from the spec: `DeltaChecker.IsMisspelled`, the bounded fuzzy checker of
spec §4.4, whose code is not among the sources. Step 1 returns `(false, [])` for a
word the trie contains; step 2 runs the bounded search from the root and the start
of the word; the result assembly removes repeated words, keeps the discovery order
and reports misspelled exactly when a word was found. Every transition consumes a
character of the word or one insertion, so `AllowedIns + len(word) + 1` levels
exhaust the search. -/
def DeltaChecker.IsMisspelled (dc : DeltaChecker) : Checker :=
  fun word dict =>
    match dict.Contains word with
    | .panics => .panics
    | .returns true => .returns (false, [])
    | .returns false =>
      let found := dedupFirst
        (DeltaChecker.search dict.Alphabet.Letters (dc.AllowedIns + word.length + 1)
          dict [] word dc)
      .returns (!found.isEmpty, found)

/-- Modelled from the spec: the verdicts of all the child checkers of a combinator,
in child order (spec §4.5: both combinators evaluate all children); a child that
panics makes the combinator panic. -/
def runAll (checkers : List Checker) (word : Word) (dict : Trie) : Run (List Verdict) :=
  match checkers with
  | [] => .returns []
  | c :: cs =>
    match c word dict with
    | .panics => .panics
    | .returns v =>
      match runAll cs word dict with
      | .panics => .panics
      | .returns vs => .returns (v :: vs)

/-- Modelled from the spec: `unionChecker{checkers}`, the OR combinator of spec §4.5,
whose code is not among the sources: misspelled when some child is; the suggestions
are the children's lists concatenated in child order, a repeated word kept once
at its first place; `(false, [])` when no child is misspelled. -/
def unionChecker (checkers : List Checker) : Checker :=
  fun word dict =>
    match runAll checkers word dict with
    | .panics => .panics
    | .returns vs =>
      if vs.any (fun v => v.1) then .returns (true, dedupFirst (vs.flatMap (fun v => v.2)))
      else .returns (false, [])

/-- Modelled from the spec: `intersectChecker{checkers}`, the AND combinator of spec
§4.5, whose code is not among the sources: misspelled when every child is, and then
the suggestions are the children's lists concatenated, a repeated word kept once;
`(false, [])` when some child is not misspelled. -/
def intersectChecker (checkers : List Checker) : Checker :=
  fun word dict =>
    match runAll checkers word dict with
    | .panics => .panics
    | .returns vs =>
      if vs.all (fun v => v.1) then .returns (true, dedupFirst (vs.flatMap (fun v => v.2)))
      else .returns (false, [])

/-- The struct `test` of the test file: a word with the expected verdict. -/
structure test where
  word : Word
  misspelled : Bool
  suggested : List Word
  deriving DecidableEq, Repr

/-- The function `runTests` of the test file, as a Boolean: every row's word gets the
expected flag and the expected suggestions from the checker. -/
def runTests (checker : Checker) (dict : Trie) (tests : List test) : Bool :=
  tests.all (fun t => decide (checker t.word dict = .returns (t.misspelled, t.suggested)))

/-- The table of `TestMinLengthChecker`, run with `MinLengthChecker(3)`. -/
def TestMinLengthChecker : List test :=
  [⟨runes "", false, []⟩, ⟨runes "1", false, []⟩, ⟨runes "11", false, []⟩,
   ⟨runes "111", true, []⟩, ⟨runes "1111", true, []⟩]

/-- The table of `TestStrictChecker`, run with `StrictChecker{}`. -/
def TestStrictChecker : List test :=
  [⟨runes "1", false, []⟩, ⟨runes "12", false, []⟩, ⟨runes "123", false, []⟩,
   ⟨runes "122", true, []⟩, ⟨runes "1234", false, []⟩, ⟨runes "0", true, []⟩]

/-- The first table of `TestDeltaCheckerInsertions` (single insertions), run with
`DeltaChecker{AllowedIns: 1}`. -/
def TestDeltaCheckerInsertions_single : List test :=
  [⟨runes "1", false, []⟩, ⟨runes "3", false, []⟩, ⟨runes "1233", false, []⟩,
   ⟨runes "2", true, [runes "12"]⟩, ⟨runes "134", true, [runes "1234"]⟩]

/-- The second table of `TestDeltaCheckerInsertions` (multiple insertions), run with
`AllowedIns = 2`. -/
def TestDeltaCheckerInsertions_multiple : List test :=
  [⟨runes "3", true, [runes "123"]⟩, ⟨runes "4", false, []⟩,
   ⟨runes "13", true, [runes "123"]⟩]

/-- The first table of `TestDeltaCheckerDeletions` (single deletions), run with
`DeltaChecker{AllowedDel: 1}`. -/
def TestDeltaCheckerDeletions_single : List test :=
  [⟨runes "1", false, []⟩, ⟨runes "3", false, []⟩, ⟨runes "1233", true, [runes "123"]⟩,
   ⟨runes "122", true, [runes "12"]⟩, ⟨runes "12344", true, [runes "1234"]⟩,
   ⟨runes "11234", true, [runes "1234"]⟩]

/-- The second table of `TestDeltaCheckerDeletions` (multiple deletions), run with
`AllowedDel = 2`. -/
def TestDeltaCheckerDeletions_multiple : List test :=
  [⟨runes "13", true, [runes "1"]⟩, ⟨runes "133", true, [runes "1"]⟩,
   ⟨runes "1333", false, []⟩, ⟨runes "11233", true, [runes "123"]⟩,
   ⟨runes "112333", false, []⟩]

/-- The first table of `TestDeltaCheckerSwaps` (single swaps), run with
`DeltaChecker{AllowedSwaps: 1}`. -/
def TestDeltaCheckerSwaps_single : List test :=
  [⟨runes "1", false, []⟩, ⟨runes "2", false, []⟩, ⟨runes "3", false, []⟩,
   ⟨runes "1233", false, []⟩, ⟨runes "21", true, [runes "12"]⟩, ⟨runes "321", false, []⟩,
   ⟨runes "1243", true, [runes "1234"]⟩]

/-- The second table of `TestDeltaCheckerSwaps` (multiple swaps), run with
`AllowedSwaps = 2`. -/
def TestDeltaCheckerSwaps_multiple : List test :=
  [⟨runes "21", true, [runes "12"]⟩, ⟨runes "321", false, []⟩,
   ⟨runes "1423", true, [runes "1234"]⟩, ⟨runes "4123", false, []⟩]

/-- The table of `TestDeltaCheckerMods`, run with `DeltaChecker{AllowedMods: 1}`. -/
def TestDeltaCheckerMods : List test :=
  [⟨runes "12344", false, []⟩, ⟨runes "333", false, []⟩,
   ⟨runes "133", true, [runes "123"]⟩]

/-- The table of `TestDeltaCheckerCombine`, run with
`DeltaChecker{AllowedIns: 1, AllowedDel: 1, AllowedSwaps: 1}`. -/
def TestDeltaCheckerCombine : List test :=
  [⟨runes "1", false, []⟩, ⟨runes "132", true, [runes "123"]⟩,
   ⟨runes "214", true, [runes "12"]⟩, ⟨runes "12334", true, [runes "1234"]⟩,
   ⟨runes "111", false, []⟩, ⟨runes "23", true, [runes "123"]⟩,
   ⟨runes "2234", true, [runes "1234"]⟩, ⟨runes "34", false, []⟩]

/-- The table of `TestUnionChecker`, run with the union of
`DeltaChecker{AllowedSwaps: 1}` and `DeltaChecker{AllowedIns: 1}`. -/
def TestUnionChecker : List test :=
  [⟨runes "12", false, []⟩, ⟨runes "132", true, [runes "123"]⟩,
   ⟨runes "134", true, [runes "1234"]⟩]

/-- The table of `TestIntersectChecker`, run with the intersection of
`MinLengthChecker(4)` and `DeltaChecker{AllowedMods: 1}`. -/
def TestIntersectChecker : List test :=
  [⟨runes "1224", true, [runes "1234"]⟩, ⟨runes "12344", false, []⟩,
   ⟨runes "333", false, []⟩, ⟨runes "133", false, []⟩]

/-- Modelled from the spec: the transitions of spec §4.4 as a relation on the word
still to be read, with the swap read the way the tests need it.
`Reaches node rest b out`: from the state with trie node `node`, remaining word
`rest` and remaining budgets `b`, a path of match, substitution, insertion,
deletion and swap transitions, each within its budget, ends in a terminal success
state (word consumed, node terminating), and `out` spells the trie edges walked.
A swap exchanges the two characters at the position and costs one unit of the swap
budget. The swap of §4.4 (`DeltaChecker.Step`) is that exchange followed by the two
matches, so every path of §4.4 is one of these; unlike §4.4 an exchange may be
followed by any transition, which the row "1423" of `TestDeltaCheckerSwaps` needs
(two exchanges that overlap). -/
inductive DeltaChecker.Reaches : Trie → Word → DeltaChecker → Word → Prop
  | terminal (node : Trie) (b : DeltaChecker) :
      node.terminates = true → Reaches node [] b []
  | matched (node n : Trie) (c : Rune) (rest out : Word) (b : DeltaChecker) :
      node.child c = some n → Reaches n rest b out → Reaches node (c :: rest) b (c :: out)
  | substitution (node n : Trie) (c x : Rune) (rest out : Word) (b : DeltaChecker) :
      0 < b.AllowedMods → x ≠ c → node.child x = some n →
      Reaches n rest { b with AllowedMods := b.AllowedMods - 1 } out →
      Reaches node (c :: rest) b (x :: out)
  | insertion (node n : Trie) (x : Rune) (rest out : Word) (b : DeltaChecker) :
      0 < b.AllowedIns → node.child x = some n →
      Reaches n rest { b with AllowedIns := b.AllowedIns - 1 } out →
      Reaches node rest b (x :: out)
  | deletion (node : Trie) (c : Rune) (rest out : Word) (b : DeltaChecker) :
      0 < b.AllowedDel →
      Reaches node rest { b with AllowedDel := b.AllowedDel - 1 } out →
      Reaches node (c :: rest) b out
  | swap (node : Trie) (c d : Rune) (rest out : Word) (b : DeltaChecker) :
      0 < b.AllowedSwaps →
      Reaches node (d :: c :: rest) { b with AllowedSwaps := b.AllowedSwaps - 1 } out →
      Reaches node (c :: d :: rest) b out

/-- The budgets `b` are at most the budgets `b'` in each of the four components. -/
def DeltaChecker.Within (b b' : DeltaChecker) : Prop :=
  b.AllowedIns ≤ b'.AllowedIns ∧ b.AllowedDel ≤ b'.AllowedDel ∧
  b.AllowedSwaps ≤ b'.AllowedSwaps ∧ b.AllowedMods ≤ b'.AllowedMods

/-! ## Invariants used by the proofs -/

/-- Every node of the trie holds the alphabet `a` in its `alphabet` field. -/
inductive Uniform (a : Alphabet) : Trie → Prop
  | mk (ch : Fin 28 → Option Trie) (tm : Bool) :
      (∀ i c, ch i = some c → Uniform a c) → Uniform a (.mk a ch tm)

/-- Every index the alphabet returns is below 28, the length of `children`. -/
def Alphabet.Bounded (a : Alphabet) : Prop := ∀ r i, a.Index r = some i → i < 28

/-! ## Paths of the trie -/

/-- The node reached from `t` by following the slots `children[i₁]`, `children[i₂]`,
... of an index sequence; `none` when a slot on the way is `nil`. The empty sequence
reaches `t` itself. -/
def Trie.walk : Trie → List (Fin 28) → Option Trie
  | t, [] => some t
  | t, i :: path =>
    match t.children i with
    | none => none
    | some child => child.walk path

/-- The index sequence of a word: the indices `Index` gives for its characters, when
every character is in the alphabet and every index is a slot of `children`. -/
def Alphabet.indices (a : Alphabet) : List Rune → Option (List (Fin 28))
  | [] => some []
  | r :: rs =>
    match a.Index r with
    | none => none
    | some idx =>
      if h : idx < 28 then
        match a.indices rs with
        | none => none
        | some is => some (⟨idx, h⟩ :: is)
      else none

/-- The updates the inner loop of `NewTrie` makes for a word with the index sequence
`is`, started at a node: it is `insertLetters` with the lookups of `Index` already
done (`insertLetters_eq_put`). -/
def Trie.put (alphabet : Gospell.Alphabet) : Trie → List (Fin 28) → Trie
  | .mk al ch _, [] => .mk al ch true
  | .mk al ch tm, i :: is =>
    .mk al (fun j => if j = i then
        some (Trie.put alphabet
          (match ch i with
            | none => Trie.fresh alphabet
            | some child => child) is)
      else ch j) tm

/-- The trie after the words of a list are put into it one after the other; a word
without an index sequence is skipped. -/
def Trie.putAll (alphabet : Gospell.Alphabet) (t : Trie) (words : List (List Rune)) : Trie :=
  words.foldl (fun acc w =>
    match alphabet.indices w with
    | none => acc
    | some is => acc.put alphabet is) t

/-! ## The state space of the bounded search -/

/-- A state of the search of spec §4.4: the current trie node, the rest of the word
(the position) and the remaining budgets. -/
abbrev DeltaChecker.State := Trie × Word × DeltaChecker

/-- The sum of the four remaining budgets. -/
def DeltaChecker.total (b : DeltaChecker) : Nat :=
  b.AllowedIns + b.AllowedDel + b.AllowedSwaps + b.AllowedMods

/-- Modelled from the spec: one transition of the search of spec §4.4 between two
states, as the spec words it: the free match, and the substitution, insertion,
deletion and swap, each conditioned on its budget being positive and consuming one
unit of it; the swap advances the word by two characters and the trie by two
nodes. -/
inductive DeltaChecker.Step : DeltaChecker.State → DeltaChecker.State → Prop
  | matched (node n : Trie) (c : Rune) (rest : Word) (b : DeltaChecker) :
      node.child c = some n → Step (node, c :: rest, b) (n, rest, b)
  | substitution (node n : Trie) (c x : Rune) (rest : Word) (b : DeltaChecker) :
      0 < b.AllowedMods → x ≠ c → node.child x = some n →
      Step (node, c :: rest, b) (n, rest, { b with AllowedMods := b.AllowedMods - 1 })
  | insertion (node n : Trie) (x : Rune) (rest : Word) (b : DeltaChecker) :
      0 < b.AllowedIns → node.child x = some n →
      Step (node, rest, b) (n, rest, { b with AllowedIns := b.AllowedIns - 1 })
  | deletion (node : Trie) (c : Rune) (rest : Word) (b : DeltaChecker) :
      0 < b.AllowedDel →
      Step (node, c :: rest, b) (node, rest, { b with AllowedDel := b.AllowedDel - 1 })
  | swap (node n m : Trie) (c d : Rune) (rest : Word) (b : DeltaChecker) :
      0 < b.AllowedSwaps → node.child d = some n → n.child c = some m →
      Step (node, c :: d :: rest, b) (m, rest, { b with AllowedSwaps := b.AllowedSwaps - 1 })

/-! # Theorems -/

/-! ### The trie: helper lemmas -/

theorem Uniform.fresh (a : Alphabet) : Uniform a (Trie.fresh a) :=
  Uniform.mk _ _ (fun _ _ h => by simp at h)

theorem Contains_fresh (a : Alphabet) (hlt : a.Bounded) (w : List Rune) :
    (Trie.fresh a).Contains w = .returns false := by
  cases w with
  | nil => rfl
  | cons l w =>
    unfold Trie.Contains
    simp only [Trie.fresh, Trie.alphabet, Trie.children]
    cases hi : a.Index l with
    | none => rfl
    | some idx => simp [hlt l idx hi]

theorem insertLetters_spec (a : Alphabet) (hlt : a.Bounded)
    (hinj : ∀ r s i, a.Index r = some i → a.Index s = some i → r = s) :
    ∀ (ls : List Rune) (t : Trie) (f : List Rune → Bool), Uniform a t →
      (∀ r ∈ ls, a.Index r ≠ none) → (∀ w, t.Contains w = .returns (f w)) →
      ∃ t', insertLetters a t ls = .done t' ∧ Uniform a t' ∧
        ∀ w, t'.Contains w = .returns (f w || decide (w = ls)) := by
  intro ls
  induction ls with
  | nil =>
    intro t f hu _ hf
    cases hu with
    | mk ch tm hch =>
      refine ⟨.mk a ch true, rfl, Uniform.mk _ _ hch, ?_⟩
      intro w
      cases w with
      | nil => simp [Trie.Contains, Trie.terminates]
      | cons l w =>
        have := hf (l :: w)
        simp only [Trie.Contains, Trie.alphabet, Trie.children] at this ⊢
        simpa using this
  | cons l ls ih =>
    intro t f hu hmem hf
    cases hu with
    | mk ch tm hch =>
      obtain ⟨idx, hidx⟩ := Option.ne_none_iff_exists'.mp (hmem l (by simp))
      have hb : idx < 28 := hlt l idx hidx
      -- the node the walk continues from, and what it contains
      obtain ⟨next, hnext, hun, g, hg, hgf⟩ :
          ∃ next : Trie, (match ch ⟨idx, hb⟩ with
              | none => Trie.fresh a
              | some child => child) = next ∧ Uniform a next ∧
            ∃ g : List Rune → Bool, (∀ w, next.Contains w = .returns (g w)) ∧
              ∀ w, f (l :: w) = g w := by
        cases hc : ch ⟨idx, hb⟩ with
        | none =>
          refine ⟨Trie.fresh a, rfl, Uniform.fresh a, fun _ => false,
            Contains_fresh a hlt, ?_⟩
          intro w
          have := hf (l :: w)
          simp only [Trie.Contains, Trie.alphabet, Trie.children, hidx, hb, hc, dite_true] at this
          simpa using this.symm
        | some child =>
          have := fun w => hf (l :: w)
          simp only [Trie.Contains, Trie.alphabet, Trie.children, hidx, hb, hc, dite_true] at this
          exact ⟨child, rfl, hch _ _ hc, fun w => f (l :: w), this, fun _ => rfl⟩
      obtain ⟨c, hc, huc, hcw⟩ := ih next g hun (fun r hr => hmem r (by simp [hr])) hg
      refine ⟨.mk a (fun j => if j = ⟨idx, hb⟩ then some c else ch j) tm, ?_, ?_, ?_⟩
      · simp only [insertLetters, hidx, hb, dite_true, hnext, hc]
      · refine Uniform.mk _ _ ?_
        intro i d hd
        by_cases hi : i = ⟨idx, hb⟩
        · simp only [hi, if_true, Option.some.injEq] at hd
          exact hd ▸ huc
        · simp only [hi, if_false] at hd
          exact hch i d hd
      · intro w
        cases w with
        | nil =>
          have := hf []
          simp only [Trie.Contains, Trie.terminates] at this ⊢
          simpa using this
        | cons r w =>
          have hfr := hf (r :: w)
          simp only [Trie.Contains, Trie.alphabet, Trie.children] at hfr ⊢
          cases hr : a.Index r with
          | none =>
            have hne : r ≠ l := by
              rintro rfl
              rw [hidx] at hr
              cases hr
            simp only [hr] at hfr ⊢
            simp [hne, Run.returns.inj hfr.symm]
          | some j =>
            have hj : j < 28 := hlt r j hr
            simp only [hr, hj, dite_true] at hfr ⊢
            by_cases hji : j = idx
            · subst hji
              have hrl : r = l := hinj r l j hr hidx
              subst hrl
              simp only [if_true, hcw w, ← hgf w]
              simp
            · have hne : r ≠ l := by
                rintro rfl
                rw [hidx] at hr
                exact hji (Option.some.inj hr).symm
              have hfin : (⟨j, hj⟩ : Fin 28) ≠ ⟨idx, hb⟩ := by
                intro h
                exact hji (Fin.mk.inj_iff.mp h)
              simp only [hfin, if_false]
              rw [hfr]
              simp [hne]

theorem insertLetters_outcome (a : Alphabet) (hlt : a.Bounded) :
    ∀ (ls : List Rune) (t : Trie),
      ((∃ r ∈ ls, a.Index r = none) → insertLetters a t ls = .unknownChar) ∧
      ((∀ r ∈ ls, a.Index r ≠ none) → ∃ t', insertLetters a t ls = .done t') := by
  intro ls
  induction ls with
  | nil =>
    intro t
    cases t with
    | mk al ch tm => exact ⟨fun ⟨r, hr, _⟩ => by simp at hr, fun _ => ⟨_, rfl⟩⟩
  | cons l ls ih =>
    intro t
    cases t with
    | mk al ch tm =>
      cases hi : a.Index l with
      | none =>
        refine ⟨fun _ => by simp [insertLetters, hi], fun h => ?_⟩
        exact absurd hi (h l (by simp))
      | some idx =>
        have hb : idx < 28 := hlt l idx hi
        obtain ⟨ihbad, ihgood⟩ := ih (match ch ⟨idx, hb⟩ with
          | none => Trie.fresh a
          | some child => child)
        constructor
        · rintro ⟨r, hr, hrn⟩
          have hrest : ∃ r ∈ ls, a.Index r = none := by
            rcases List.mem_cons.mp hr with rfl | hr'
            · rw [hi] at hrn
              cases hrn
            · exact ⟨r, hr', hrn⟩
          simp only [insertLetters, hi, hb, dite_true, ihbad hrest]
        · intro h
          obtain ⟨c, hc⟩ := ihgood (fun r hr => h r (by simp [hr]))
          refine ⟨.mk al (fun j => if j = ⟨idx, hb⟩ then some c else ch j) tm, ?_⟩
          simp only [insertLetters, hi, hb, dite_true, hc]

theorem insertLetters_uniform (a : Alphabet) :
    ∀ (ls : List Rune) (t t' : Trie), Uniform a t → insertLetters a t ls = .done t' →
      Uniform a t' := by
  intro ls
  induction ls with
  | nil =>
    intro t t' hu h
    cases hu with
    | mk ch tm hch =>
      simp only [insertLetters, Inserted.done.injEq] at h
      exact h ▸ Uniform.mk _ _ hch
  | cons l ls ih =>
    intro t t' hu h
    cases hu with
    | mk ch tm hch =>
      cases hi : a.Index l with
      | none => simp [insertLetters, hi] at h
      | some idx =>
        by_cases hb : idx < 28
        · simp only [insertLetters, hi, hb, dite_true] at h
          have hnext : Uniform a (match ch ⟨idx, hb⟩ with
              | none => Trie.fresh a
              | some child => child) := by
            cases hc : ch ⟨idx, hb⟩ with
            | none => exact Uniform.fresh a
            | some child => exact hch _ _ hc
          cases hins : insertLetters a (match ch ⟨idx, hb⟩ with
              | none => Trie.fresh a
              | some child => child) ls with
          | outOfRange => simp [hins] at h
          | unknownChar => simp [hins] at h
          | done c =>
            simp only [hins, Inserted.done.injEq] at h
            subst h
            refine Uniform.mk _ _ ?_
            intro i d hd
            by_cases hij : i = ⟨idx, hb⟩
            · simp only [hij, if_true, Option.some.injEq] at hd
              exact hd ▸ ih _ _ hnext hins
            · simp only [hij, if_false] at hd
              exact hch i d hd
        · simp [insertLetters, hi, hb] at h

theorem Contains_returns (a : Alphabet) (hlt : a.Bounded) :
    ∀ (w : List Rune) (t : Trie), Uniform a t → ∃ b, t.Contains w = .returns b := by
  intro w
  induction w with
  | nil => exact fun t _ => ⟨_, rfl⟩
  | cons l w ih =>
    intro t hu
    cases hu with
    | mk ch tm hch =>
      simp only [Trie.Contains, Trie.alphabet, Trie.children]
      cases hi : a.Index l with
      | none => exact ⟨false, rfl⟩
      | some idx =>
        have hb : idx < 28 := hlt l idx hi
        simp only [hb, dite_true]
        cases hc : ch ⟨idx, hb⟩ with
        | none => exact ⟨false, rfl⟩
        | some child => exact ih child (hch _ _ hc)

theorem Contains_unmapped (a : Alphabet) (c : Rune) (post : List Rune) (hc : a.Index c = none) :
    ∀ (pre : List Rune) (t : Trie), Uniform a t →
      (∀ r ∈ pre, ∀ i, a.Index r = some i → i < 28) →
      t.Contains (pre ++ c :: post) = .returns false := by
  intro pre
  induction pre with
  | nil =>
    intro t hu _
    cases hu with
    | mk ch tm hch => simp [Trie.Contains, Trie.alphabet, hc]
  | cons l pre ih =>
    intro t hu hpre
    cases hu with
    | mk ch tm hch =>
      simp only [List.cons_append, Trie.Contains, Trie.alphabet, Trie.children]
      cases hi : a.Index l with
      | none => rfl
      | some idx =>
        have hb : idx < 28 := hpre l (by simp) idx hi
        simp only [hb, dite_true]
        cases hch' : ch ⟨idx, hb⟩ with
        | none => rfl
        | some child =>
          exact ih child (hch _ _ hch') (fun r hr => hpre r (by simp [hr]))

theorem loop_spec (a : Alphabet) (hlt : a.Bounded)
    (hinj : ∀ r s i, a.Index r = some i → a.Index s = some i → r = s) :
    ∀ (words : List (List Rune)) (t : Trie) (f : List Rune → Bool), Uniform a t →
      (∀ w ∈ words, ∀ r ∈ w, a.Index r ≠ none) → (∀ w, t.Contains w = .returns (f w)) →
      ∃ t', NewTrie.loop a t words = .returns (some t', none) ∧
        ∀ w, t'.Contains w = .returns (f w || decide (w ∈ words)) := by
  intro words
  induction words with
  | nil =>
    intro t f _ _ hf
    exact ⟨t, rfl, fun w => by simpa using hf w⟩
  | cons v words ih =>
    intro t f hu hmem hf
    obtain ⟨t1, h1, hu1, hf1⟩ :=
      insertLetters_spec a hlt hinj v t f hu (hmem v (by simp)) hf
    obtain ⟨t2, h2, hf2⟩ := ih t1 _ hu1 (fun w hw => hmem w (by simp [hw])) hf1
    refine ⟨t2, by simp only [NewTrie.loop, h1, h2], fun w => ?_⟩
    rw [hf2 w]
    congr 1
    by_cases hwv : w = v <;> simp [hwv, Bool.or_assoc]

theorem loop_outcome (a : Alphabet) (hlt : a.Bounded) :
    ∀ (words : List (List Rune)) (t : Trie),
      ((∃ w ∈ words, ∃ r ∈ w, a.Index r = none) →
        NewTrie.loop a t words = .returns (none, some unknownCharError)) ∧
      ((∀ w ∈ words, ∀ r ∈ w, a.Index r ≠ none) →
        ∃ t', NewTrie.loop a t words = .returns (some t', none)) := by
  intro words
  induction words with
  | nil =>
    intro t
    exact ⟨fun ⟨w, hw, _⟩ => by simp at hw, fun _ => ⟨t, rfl⟩⟩
  | cons v words ih =>
    intro t
    obtain ⟨hbad, hgood⟩ := insertLetters_outcome a hlt v t
    by_cases hv : ∀ r ∈ v, a.Index r ≠ none
    · obtain ⟨t1, h1⟩ := hgood hv
      obtain ⟨ihbad, ihgood⟩ := ih t1
      constructor
      · rintro ⟨w, hw, r, hr, hrn⟩
        have : ∃ w ∈ words, ∃ r ∈ w, a.Index r = none := by
          rcases List.mem_cons.mp hw with rfl | hw'
          · exact absurd hrn (hv r hr)
          · exact ⟨w, hw', r, hr, hrn⟩
        simp only [NewTrie.loop, h1, ihbad this]
      · intro h
        obtain ⟨t2, h2⟩ := ihgood (fun w hw => h w (by simp [hw]))
        exact ⟨t2, by simp only [NewTrie.loop, h1, h2]⟩
    · have hv' : ∃ r ∈ v, a.Index r = none := by
        push_neg at hv
        exact hv
      constructor
      · intro _
        simp only [NewTrie.loop, hbad hv']
      · intro h
        exact absurd (h v (by simp)) hv

theorem loop_uniform (a : Alphabet) :
    ∀ (words : List (List Rune)) (t t' : Trie) (e : Option String), Uniform a t →
      NewTrie.loop a t words = .returns (some t', e) → Uniform a t' := by
  intro words
  induction words with
  | nil =>
    intro t t' e hu h
    simp only [NewTrie.loop, Run.returns.injEq, Prod.mk.injEq, Option.some.injEq] at h
    exact h.1 ▸ hu
  | cons v words ih =>
    intro t t' e hu h
    cases hins : insertLetters a t v with
    | outOfRange => simp [NewTrie.loop, hins] at h
    | unknownChar => simp [NewTrie.loop, hins] at h
    | done t1 =>
      simp only [NewTrie.loop, hins] at h
      exact ih t1 t' e (insertLetters_uniform a v t t1 hu hins) h

/-! ### The alphabets of the tests -/

theorem alphabetOf_index (s : String) (r : Rune) (i : Nat)
    (h : (alphabetOf s).Index r = some i) :
    r ∈ runes s ∧ i = (runes s).indexOf r := by
  simp only [alphabetOf] at h
  split at h
  · rename_i hlt
    exact ⟨List.indexOf_lt_length.mp hlt, (Option.some.inj h).symm⟩
  · cases h

theorem alphabetOf_bounded (s : String) (hs : (runes s).length ≤ 28) :
    (alphabetOf s).Bounded := by
  intro r i h
  obtain ⟨hr, rfl⟩ := alphabetOf_index s r i h
  exact lt_of_lt_of_le (List.indexOf_lt_length.mpr hr) hs

theorem alphabetOf_injective (s : String) (r r' : Rune) (i : Nat)
    (h : (alphabetOf s).Index r = some i) (h' : (alphabetOf s).Index r' = some i) : r = r' := by
  obtain ⟨hr, hi⟩ := alphabetOf_index s r i h
  obtain ⟨hr', hi'⟩ := alphabetOf_index s r' i h'
  exact (List.indexOf_inj hr hr').mp (hi ▸ hi' ▸ rfl)

theorem alphabetOf_mem (s : String) (r : Rune) (hr : r ∈ runes s) :
    (alphabetOf s).Index r ≠ none := by
  simp [alphabetOf, List.indexOf_lt_length.mpr hr]

theorem testWords_in_testAlphabet : ∀ w ∈ testWords, ∀ r ∈ w, testAlphabet.Index r ≠ none := by
  intro w hw r hr
  apply alphabetOf_mem
  have hall : ∀ w ∈ testWords, ∀ r ∈ w, r ∈ runes "1234" := by decide
  exact hall w hw r hr

/-! ### Claims on `NewTrie` and `Contains` -/

/-- C1: for an alphabet that maps distinct characters to distinct indices below 28
and a word list whose characters all belong to it, `NewTrie` returns a trie and no
error, and `Contains w` on that trie returns true exactly when `w` is one of the
listed rune sequences (for every `w`, the empty one included). -/
theorem NewTrie_Contains_iff (alphabet : Alphabet) (words : List (List Rune))
    (hinj : ∀ r s i, alphabet.Index r = some i → alphabet.Index s = some i → r = s)
    (hlt : ∀ r i, alphabet.Index r = some i → i < 28)
    (hwords : ∀ w ∈ words, ∀ r ∈ w, alphabet.Index r ≠ none) :
    ∃ t, NewTrie words alphabet = .returns (some t, none) ∧
      ∀ w, t.Contains w = .returns (decide (w ∈ words)) := by
  obtain ⟨t, ht, hw⟩ := loop_spec alphabet hlt hinj words (Trie.fresh alphabet)
    (fun _ => false) (Uniform.fresh alphabet) hwords (Contains_fresh alphabet hlt)
  exact ⟨t, ht, fun w => by simpa using hw w⟩

/-- Witness of C1 on the alphabet "1234" and the words "1", "12", "123", "1234" of the
tests. -/
theorem NewTrie_Contains_iff_witness :
    (∀ r s i, testAlphabet.Index r = some i → testAlphabet.Index s = some i → r = s) ∧
    (∀ r i, testAlphabet.Index r = some i → i < 28) ∧
    (∀ w ∈ testWords, ∀ r ∈ w, testAlphabet.Index r ≠ none) ∧
    ∃ t, NewTrie testWords testAlphabet = .returns (some t, none) ∧
      ∀ w, t.Contains w = .returns (decide (w ∈ testWords)) :=
  ⟨alphabetOf_injective "1234", alphabetOf_bounded "1234" (by decide),
    testWords_in_testAlphabet,
    NewTrie_Contains_iff testAlphabet testWords (alphabetOf_injective "1234")
      (alphabetOf_bounded "1234" (by decide)) testWords_in_testAlphabet⟩

/-- C2: for an alphabet with indices below 28, `NewTrie` returns the nil trie
together with the unknown-character error exactly when some character of some word
is not in the alphabet (wherever it stands in the list), and returns a trie together
with the nil error exactly when there is none. -/
theorem NewTrie_error_iff (alphabet : Alphabet) (words : List (List Rune))
    (hlt : ∀ r i, alphabet.Index r = some i → i < 28) :
    (NewTrie words alphabet = .returns (none, some unknownCharError) ↔
      ∃ w ∈ words, ∃ r ∈ w, alphabet.Index r = none) ∧
    ((∃ t, NewTrie words alphabet = .returns (some t, none)) ↔
      ∀ w ∈ words, ∀ r ∈ w, alphabet.Index r ≠ none) := by
  obtain ⟨hbad, hgood⟩ := loop_outcome alphabet hlt words (Trie.fresh alphabet)
  refine ⟨⟨fun h => ?_, hbad⟩, ⟨?_, hgood⟩⟩
  · by_contra hne
    push_neg at hne
    obtain ⟨t, ht⟩ := hgood hne
    unfold NewTrie at h
    rw [h] at ht
    simp at ht
  · rintro ⟨t, ht⟩ w hw r hr hnone
    have h := hbad ⟨w, hw, r, hr, hnone⟩
    unfold NewTrie at ht
    rw [h] at ht
    simp at ht

/-- Witness of C2: over the alphabet "1234" the list "1", "12", "0", "123" has the
unknown character '0' after two valid words, and `NewTrie` returns the error with
the nil trie. -/
theorem NewTrie_error_iff_witness :
    (∀ r i, testAlphabet.Index r = some i → i < 28) ∧
    (∃ w ∈ [runes "1", runes "12", runes "0", runes "123"], ∃ r ∈ w,
      testAlphabet.Index r = none) ∧
    NewTrie [runes "1", runes "12", runes "0", runes "123"] testAlphabet =
      .returns (none, some unknownCharError) :=
  ⟨alphabetOf_bounded "1234" (by decide), by decide,
    (NewTrie_error_iff testAlphabet [runes "1", runes "12", runes "0", runes "123"]
      (alphabetOf_bounded "1234" (by decide))).1.mpr (by decide)⟩

/-- Counterexample to C3 as stated: over the 29-character alphabet
"abcdefghijklmnopqrstuvwxyz012" the trie of the word "a" is built without error, the
character '?' is outside the alphabet, and `Contains` on "2?" panics (the index 28 of
'2' is outside `children`) instead of returning false. -/
theorem Contains_unmapped_counterexample :
    ∃ t, NewTrie [runes "a"] wideAlphabet = .returns (some t, none) ∧
      wideAlphabet.Index 63 = none ∧ (63 : Rune) ∈ runes "2?" ∧
      t.Contains (runes "2?") = .panics ∧ t.Contains (runes "2?") ≠ .returns false :=
  ⟨_, rfl, by decide, by decide, by decide, by decide⟩

/-- C3 (amended): on a trie built by `NewTrie`, `Contains w` returns false for every
`w` that has a character outside the alphabet, wherever it occurs, provided the
characters of `w` before it that the alphabet maps are mapped below 28. -/
theorem Contains_unmapped_false (alphabet : Alphabet) (words : List (List Rune))
    (t : Trie) (e : Option String)
    (hnew : NewTrie words alphabet = .returns (some t, e))
    (pre : List Rune) (c : Rune) (post : List Rune)
    (hc : alphabet.Index c = none)
    (hpre : ∀ r ∈ pre, ∀ i, alphabet.Index r = some i → i < 28) :
    t.Contains (pre ++ c :: post) = .returns false :=
  Contains_unmapped alphabet c post hc pre t
    (loop_uniform alphabet words _ t e (Uniform.fresh alphabet) hnew) hpre

/-- Witness of C3 (amended): the trie of the test words over "1234" and the
sequence "1203", whose third character '0' is outside the alphabet. -/
theorem Contains_unmapped_false_witness :
    ∃ t, NewTrie testWords testAlphabet = .returns (some t, none) ∧
      testAlphabet.Index 48 = none ∧
      (∀ r ∈ runes "12", ∀ i, testAlphabet.Index r = some i → i < 28) ∧
      t.Contains (runes "12" ++ 48 :: runes "3") = .returns false :=
  ⟨_, rfl, by decide, fun r _ i h => alphabetOf_bounded "1234" (by decide) r i h,
    Contains_unmapped_false testAlphabet testWords _ none rfl (runes "12") 48 (runes "3")
      (by decide) (fun r _ i h => alphabetOf_bounded "1234" (by decide) r i h)⟩

/-- Counterexample to C10 as stated: the alphabet "abcdefghijklmnopqrstuvwxyz012" has
29 distinct characters, `children` has 28 slots, and both `NewTrie` on the word "2"
and `Contains` of "2" on the trie of "a" panic at `children[28]`. -/
theorem NewTrie_wide_alphabet_panics :
    (runes "abcdefghijklmnopqrstuvwxyz012").Nodup ∧
    (runes "abcdefghijklmnopqrstuvwxyz012").length = 29 ∧
    wideAlphabet.Index 50 = some 28 ∧
    NewTrie [runes "2"] wideAlphabet = .panics ∧
    ∃ t, NewTrie [runes "a"] wideAlphabet = .returns (some t, none) ∧
      t.Contains (runes "2") = .panics :=
  ⟨by decide, by decide, by decide, rfl, _, rfl, by decide⟩

/-- C10 (amended): for an alphabet whose indices are all below 28, the number of
slots of `children`, `NewTrie` either returns the unknown-character error or
returns a trie on which `Contains` returns a Boolean for every word: no access
`children[idx]` is out of bounds. -/
theorem NewTrie_Contains_no_panic (alphabet : Alphabet) (words : List (List Rune))
    (hlt : ∀ r i, alphabet.Index r = some i → i < 28) :
    NewTrie words alphabet = .returns (none, some unknownCharError) ∨
    ∃ t, NewTrie words alphabet = .returns (some t, none) ∧
      ∀ w, ∃ b, t.Contains w = .returns b := by
  obtain ⟨hbad, hgood⟩ := loop_outcome alphabet hlt words (Trie.fresh alphabet)
  by_cases h : ∀ w ∈ words, ∀ r ∈ w, alphabet.Index r ≠ none
  · obtain ⟨t, ht⟩ := hgood h
    refine Or.inr ⟨t, ht, fun w => ?_⟩
    exact Contains_returns alphabet hlt w t
      (loop_uniform alphabet words _ t none (Uniform.fresh alphabet) ht)
  · push_neg at h
    exact Or.inl (hbad h)

/-- Witness of C10 (amended) on the alphabet "1234" and the words of the tests. -/
theorem NewTrie_Contains_no_panic_witness :
    (∀ r i, testAlphabet.Index r = some i → i < 28) ∧
    (NewTrie testWords testAlphabet = .returns (none, some unknownCharError) ∨
      ∃ t, NewTrie testWords testAlphabet = .returns (some t, none) ∧
        ∀ w, ∃ b, t.Contains w = .returns b) :=
  ⟨alphabetOf_bounded "1234" (by decide),
    NewTrie_Contains_no_panic testAlphabet testWords (alphabetOf_bounded "1234" (by decide))⟩

/-! ### The checkers: helper lemmas -/

theorem mem_dedupFirst {α : Type} [DecidableEq α] (x : α) :
    ∀ l : List α, x ∈ dedupFirst l ↔ x ∈ l := by
  intro l
  induction l with
  | nil => simp [dedupFirst]
  | cons y ys ih =>
    simp only [dedupFirst, List.mem_cons, List.mem_filter, ih]
    by_cases h : x = y <;> simp [h]

theorem dedupFirst_eq_nil {α : Type} [DecidableEq α] (l : List α) :
    dedupFirst l = [] ↔ l = [] := by
  cases l <;> simp [dedupFirst]

theorem Contains_of_child (t n : Trie) (c : Rune) (w : Word) (h : t.child c = some n) :
    t.Contains (c :: w) = n.Contains w := by
  unfold Trie.child at h
  cases hi : t.alphabet.Index c with
  | none => simp [hi] at h
  | some idx =>
    simp only [hi] at h
    by_cases hb : idx < 28
    · simp only [hb, dite_true] at h
      simp only [Trie.Contains, hi, hb, dite_true, h]
    · simp [hb] at h

theorem Reaches_Contains (node : Trie) (rest : Word) (b : DeltaChecker) (out : Word)
    (h : DeltaChecker.Reaches node rest b out) : node.Contains out = .returns true := by
  induction h with
  | terminal node b ht => simp [Trie.Contains, ht]
  | matched node n c rest out b hc _ ih => rw [Contains_of_child node n c out hc, ih]
  | substitution node n c x rest out b _ _ hc _ ih => rw [Contains_of_child node n x out hc, ih]
  | insertion node n x rest out b _ hc _ ih => rw [Contains_of_child node n x out hc, ih]
  | deletion node c rest out b _ _ ih => exact ih
  | swap node c d rest out b _ _ ih => exact ih

theorem search_sound (letters : List Rune) :
    ∀ (fuel : Nat) (node : Trie) (pre rest : Word) (b : DeltaChecker) (w : Word),
      w ∈ DeltaChecker.search letters fuel node pre rest b →
      ∃ out, w = pre ++ out ∧ DeltaChecker.Reaches node rest b out := by
  intro fuel
  induction fuel with
  | zero => intro node pre rest b w h; simp [DeltaChecker.search] at h
  | succ fuel ih =>
    intro node pre rest b w h
    simp only [DeltaChecker.search, List.mem_append] at h
    rcases h with ((((h | h) | h) | h) | h) | h
    · -- terminal success
      split at h
      · rename_i hcond
        simp only [List.mem_singleton] at h
        obtain ⟨hr, ht⟩ := hcond
        subst hr
        exact ⟨[], by simp [h], .terminal node b ht⟩
      · simp at h
    · -- free match
      cases rest with
      | nil => simp at h
      | cons c rest' =>
        simp only at h
        cases hc : node.child c with
        | none => simp [hc] at h
        | some n =>
          simp only [hc] at h
          obtain ⟨out, hw, hp⟩ := ih n (pre ++ [c]) rest' b w h
          exact ⟨c :: out, by simp [hw], .matched node n c rest' out b hc hp⟩
    · -- substitution
      cases rest with
      | nil => simp at h
      | cons c rest' =>
        simp only at h
        split at h
        · rename_i hpos
          obtain ⟨x, _, hx⟩ := List.mem_flatMap.mp h
          by_cases hxc : x = c
          · simp [hxc] at hx
          · simp only [hxc, if_false] at hx
            cases hc : node.child x with
            | none => simp [hc] at hx
            | some n =>
              simp only [hc] at hx
              obtain ⟨out, hw, hp⟩ := ih n (pre ++ [x]) rest' _ w hx
              exact ⟨x :: out, by simp [hw], .substitution node n c x rest' out b hpos hxc hc hp⟩
        · simp at h
    · -- insertion
      split at h
      · rename_i hpos
        obtain ⟨x, _, hx⟩ := List.mem_flatMap.mp h
        cases hc : node.child x with
        | none => simp [hc] at hx
        | some n =>
          simp only [hc] at hx
          obtain ⟨out, hw, hp⟩ := ih n (pre ++ [x]) rest _ w hx
          exact ⟨x :: out, by simp [hw], .insertion node n x rest out b hpos hc hp⟩
      · simp at h
    · -- deletion
      cases rest with
      | nil => simp at h
      | cons c rest' =>
        simp only at h
        split at h
        · rename_i hpos
          obtain ⟨out, hw, hp⟩ := ih node pre rest' _ w h
          exact ⟨out, hw, .deletion node c rest' out b hpos hp⟩
        · simp at h
    · -- swap
      match rest, h with
      | [], h => simp at h
      | [_], h => simp at h
      | c :: d :: rest', h =>
        simp only at h
        split at h
        · rename_i hpos
          cases hd : node.child d with
          | none => simp [hd] at h
          | some n =>
            simp only [hd] at h
            cases hc : n.child c with
            | none => simp [hc] at h
            | some m =>
              simp only [hc] at h
              obtain ⟨out, hw, hp⟩ := ih m (pre ++ [d, c]) rest' _ w h
              exact ⟨d :: c :: out, by simp [hw],
                .swap node c d rest' (d :: c :: out) b hpos
                  (.matched node n d (c :: rest') (c :: out) _ hd
                    (.matched n m c rest' out _ hc hp))⟩
        · simp at h

theorem search_mono (letters : List Rune) :
    ∀ (fuel fuel' : Nat) (node : Trie) (pre rest : Word) (b b' : DeltaChecker) (w : Word),
      fuel ≤ fuel' → b.Within b' →
      w ∈ DeltaChecker.search letters fuel node pre rest b →
      w ∈ DeltaChecker.search letters fuel' node pre rest b' := by
  intro fuel
  induction fuel with
  | zero => intro fuel' node pre rest b b' w _ _ h; simp [DeltaChecker.search] at h
  | succ fuel ih =>
    intro fuel' node pre rest b b' w hf hb h
    obtain ⟨k, rfl⟩ : ∃ k, fuel' = k + 1 := ⟨fuel' - 1, by omega⟩
    have hk : fuel ≤ k := by omega
    obtain ⟨hins, hdel, hswaps, hmods⟩ := hb
    simp only [DeltaChecker.search, List.mem_append] at h ⊢
    rcases h with ((((h | h) | h) | h) | h) | h
    · exact Or.inl (Or.inl (Or.inl (Or.inl (Or.inl h))))
    · refine Or.inl (Or.inl (Or.inl (Or.inl (Or.inr ?_))))
      cases rest with
      | nil => simp at h
      | cons c rest' =>
        simp only at h ⊢
        cases hc : node.child c with
        | none => simp [hc] at h
        | some n =>
          simp only [hc] at h ⊢
          exact ih k n _ rest' b b' w hk ⟨hins, hdel, hswaps, hmods⟩ h
    · refine Or.inl (Or.inl (Or.inl (Or.inr ?_)))
      cases rest with
      | nil => simp at h
      | cons c rest' =>
        simp only at h ⊢
        split at h
        · rename_i hpos
          have hpos' : 0 < b'.AllowedMods := lt_of_lt_of_le hpos hmods
          simp only [hpos', if_true]
          obtain ⟨x, hxl, hx⟩ := List.mem_flatMap.mp h
          refine List.mem_flatMap.mpr ⟨x, hxl, ?_⟩
          by_cases hxc : x = c
          · simp [hxc] at hx
          · simp only [hxc, if_false] at hx ⊢
            cases hc : node.child x with
            | none => simp [hc] at hx
            | some n =>
              simp only [hc] at hx ⊢
              exact ih k n _ rest' { b with AllowedMods := b.AllowedMods - 1 }
                { b' with AllowedMods := b'.AllowedMods - 1 } w hk
                ⟨hins, hdel, hswaps, Nat.sub_le_sub_right hmods 1⟩ hx
        · simp at h
    · refine Or.inl (Or.inl (Or.inr ?_))
      split at h
      · rename_i hpos
        have hpos' : 0 < b'.AllowedIns := lt_of_lt_of_le hpos hins
        simp only [hpos', if_true]
        obtain ⟨x, hxl, hx⟩ := List.mem_flatMap.mp h
        refine List.mem_flatMap.mpr ⟨x, hxl, ?_⟩
        cases hc : node.child x with
        | none => simp [hc] at hx
        | some n =>
          simp only [hc] at hx ⊢
          exact ih k n _ rest { b with AllowedIns := b.AllowedIns - 1 }
            { b' with AllowedIns := b'.AllowedIns - 1 } w hk
            ⟨Nat.sub_le_sub_right hins 1, hdel, hswaps, hmods⟩ hx
      · simp at h
    · refine Or.inl (Or.inr ?_)
      cases rest with
      | nil => simp at h
      | cons c rest' =>
        simp only at h ⊢
        split at h
        · rename_i hpos
          have hpos' : 0 < b'.AllowedDel := lt_of_lt_of_le hpos hdel
          simp only [hpos', if_true]
          exact ih k node pre rest' { b with AllowedDel := b.AllowedDel - 1 }
            { b' with AllowedDel := b'.AllowedDel - 1 } w hk
            ⟨hins, Nat.sub_le_sub_right hdel 1, hswaps, hmods⟩ h
        · simp at h
    · refine Or.inr ?_
      match rest, h with
      | [], h => simp at h
      | [_], h => simp at h
      | c :: d :: rest', h =>
        simp only at h ⊢
        split at h
        · rename_i hpos
          have hpos' : 0 < b'.AllowedSwaps := lt_of_lt_of_le hpos hswaps
          simp only [hpos', if_true]
          cases hd : node.child d with
          | none => simp [hd] at h
          | some n =>
            simp only [hd] at h ⊢
            cases hc : n.child c with
            | none => simp [hc] at h
            | some m =>
              simp only [hc] at h ⊢
              exact ih k m _ rest' { b with AllowedSwaps := b.AllowedSwaps - 1 }
                { b' with AllowedSwaps := b'.AllowedSwaps - 1 } w hk
                ⟨hins, hdel, Nat.sub_le_sub_right hswaps 1, hmods⟩ h
        · simp at h

theorem nodup_dedupFirst {α : Type} [DecidableEq α] :
    ∀ l : List α, (dedupFirst l).Nodup := by
  intro l
  induction l with
  | nil => simp [dedupFirst]
  | cons x xs ih =>
    simp only [dedupFirst]
    refine List.nodup_cons.mpr ⟨?_, ih.filter _⟩
    simp [List.mem_filter]

theorem runAll_of_map (word : Word) (dict : Trie) :
    ∀ (checkers : List Checker) (vs : List Verdict),
      checkers.map (fun c => c word dict) = vs.map Run.returns →
      runAll checkers word dict = .returns vs := by
  intro checkers
  induction checkers with
  | nil =>
    intro vs h
    cases vs with
    | nil => rfl
    | cons v vs => simp at h
  | cons c cs ih =>
    intro vs h
    cases vs with
    | nil => simp at h
    | cons v vs =>
      simp only [List.map_cons, List.cons.injEq] at h
      simp only [runAll, h.1, ih vs h.2]

theorem flatMap_ext {α β : Type} (l : List α) (f g : α → List β)
    (h : ∀ x ∈ l, f x = g x) : l.flatMap f = l.flatMap g := by
  induction l with
  | nil => rfl
  | cons x xs ih =>
    simp only [List.flatMap_cons]
    rw [h x (by simp), ih (fun y hy => h y (by simp [hy]))]

theorem search_fuel_enough (letters : List Rune) (k : Nat) :
    ∀ (fuel : Nat) (node : Trie) (pre rest : Word) (b : DeltaChecker),
      b.AllowedIns + rest.length < fuel →
      DeltaChecker.search letters (fuel + k) node pre rest b
        = DeltaChecker.search letters fuel node pre rest b := by
  intro fuel
  induction fuel with
  | zero => intro node pre rest b h; omega
  | succ f ih =>
    intro node pre rest b h
    rw [show f + 1 + k = (f + k) + 1 by omega]
    simp only [DeltaChecker.search]
    congr 1
    congr 1
    congr 1
    congr 1
    congr 1
    · -- free match
      cases rest with
      | nil => rfl
      | cons c rest' =>
        simp only
        cases hc : node.child c with
        | none => rfl
        | some n =>
          simp only
          exact ih n _ rest' b (by simp only [List.length_cons] at h; omega)
    · -- substitution
      cases rest with
      | nil => rfl
      | cons c rest' =>
        simp only
        split
        · refine flatMap_ext _ _ _ (fun x _ => ?_)
          split
          · rfl
          · cases hc : node.child x with
            | none => rfl
            | some n =>
              simp only
              exact ih n _ rest' _ (by simp only [List.length_cons] at h ⊢; omega)
        · rfl
    · -- insertion
      split
      · rename_i hpos
        refine flatMap_ext _ _ _ (fun x _ => ?_)
        cases hc : node.child x with
        | none => rfl
        | some n =>
          simp only
          exact ih n _ rest _ (by simp only; omega)
      · rfl
    · -- deletion
      cases rest with
      | nil => rfl
      | cons c rest' =>
        simp only
        split
        · exact ih node pre rest' _ (by simp only [List.length_cons] at h ⊢; omega)
        · rfl
    · -- swap
      match rest, h with
      | [], _ => rfl
      | [_], _ => rfl
      | c :: d :: rest', h =>
        simp only
        split
        · cases hd : node.child d with
          | none => rfl
          | some n =>
            simp only
            cases hc : n.child c with
            | none => rfl
            | some m =>
              simp only
              exact ih m _ rest' _ (by simp only [List.length_cons] at h ⊢; omega)
        · rfl

/-! ### The modelled checkers on the tables of the tests -/

theorem MinLengthChecker_passes_TestMinLengthChecker :
    runTests (MinLengthChecker 3) testDict TestMinLengthChecker = true := by decide

theorem StrictChecker_passes_TestStrictChecker :
    runTests StrictChecker testDict TestStrictChecker = true := by decide

theorem search_passes_TestDeltaCheckerInsertions_single :
    runTests (DeltaChecker.IsMisspelled ⟨1, 0, 0, 0⟩) testDict
      TestDeltaCheckerInsertions_single = true := by decide

theorem search_passes_TestDeltaCheckerDeletions :
    runTests (DeltaChecker.IsMisspelled ⟨0, 1, 0, 0⟩) testDict
      TestDeltaCheckerDeletions_single = true ∧
    runTests (DeltaChecker.IsMisspelled ⟨0, 2, 0, 0⟩) testDict
      TestDeltaCheckerDeletions_multiple = true := by decide

theorem search_passes_TestDeltaCheckerSwaps_single :
    runTests (DeltaChecker.IsMisspelled ⟨0, 0, 1, 0⟩) testDict
      TestDeltaCheckerSwaps_single = true := by decide

theorem search_passes_TestDeltaCheckerMods :
    runTests (DeltaChecker.IsMisspelled ⟨0, 0, 0, 1⟩) testDict TestDeltaCheckerMods = true := by
  decide

theorem unionChecker_passes_TestUnionChecker :
    runTests (unionChecker [DeltaChecker.IsMisspelled ⟨0, 0, 1, 0⟩,
      DeltaChecker.IsMisspelled ⟨1, 0, 0, 0⟩]) testDict TestUnionChecker = true := by decide

theorem intersectChecker_passes_TestIntersectChecker :
    runTests (intersectChecker [MinLengthChecker 4, DeltaChecker.IsMisspelled ⟨0, 0, 0, 1⟩])
      testDict TestIntersectChecker = true := by decide

/-- Every suggestion the tables of the `DeltaChecker` tests expect is reached from the
row's word within the row's budgets; the rows are those of
`TestDeltaCheckerInsertions`, `TestDeltaCheckerDeletions`, `TestDeltaCheckerSwaps`,
`TestDeltaCheckerMods` and `TestDeltaCheckerCombine`, in this order. -/
theorem expected_suggestions_reachable :
    DeltaChecker.Reaches testDict (runes "2") ⟨1, 0, 0, 0⟩ (runes "12") ∧
    DeltaChecker.Reaches testDict (runes "134") ⟨1, 0, 0, 0⟩ (runes "1234") ∧
    DeltaChecker.Reaches testDict (runes "3") ⟨2, 0, 0, 0⟩ (runes "123") ∧
    DeltaChecker.Reaches testDict (runes "13") ⟨2, 0, 0, 0⟩ (runes "123") ∧
    DeltaChecker.Reaches testDict (runes "1233") ⟨0, 1, 0, 0⟩ (runes "123") ∧
    DeltaChecker.Reaches testDict (runes "122") ⟨0, 1, 0, 0⟩ (runes "12") ∧
    DeltaChecker.Reaches testDict (runes "12344") ⟨0, 1, 0, 0⟩ (runes "1234") ∧
    DeltaChecker.Reaches testDict (runes "11234") ⟨0, 1, 0, 0⟩ (runes "1234") ∧
    DeltaChecker.Reaches testDict (runes "13") ⟨0, 2, 0, 0⟩ (runes "1") ∧
    DeltaChecker.Reaches testDict (runes "133") ⟨0, 2, 0, 0⟩ (runes "1") ∧
    DeltaChecker.Reaches testDict (runes "11233") ⟨0, 2, 0, 0⟩ (runes "123") ∧
    DeltaChecker.Reaches testDict (runes "21") ⟨0, 0, 1, 0⟩ (runes "12") ∧
    DeltaChecker.Reaches testDict (runes "1243") ⟨0, 0, 1, 0⟩ (runes "1234") ∧
    DeltaChecker.Reaches testDict (runes "21") ⟨0, 0, 2, 0⟩ (runes "12") ∧
    DeltaChecker.Reaches testDict (runes "1423") ⟨0, 0, 2, 0⟩ (runes "1234") ∧
    DeltaChecker.Reaches testDict (runes "133") ⟨0, 0, 0, 1⟩ (runes "123") ∧
    DeltaChecker.Reaches testDict (runes "132") ⟨1, 1, 1, 0⟩ (runes "123") ∧
    DeltaChecker.Reaches testDict (runes "214") ⟨1, 1, 1, 0⟩ (runes "12") ∧
    DeltaChecker.Reaches testDict (runes "12334") ⟨1, 1, 1, 0⟩ (runes "1234") ∧
    DeltaChecker.Reaches testDict (runes "23") ⟨1, 1, 1, 0⟩ (runes "123") ∧
    DeltaChecker.Reaches testDict (runes "2234") ⟨1, 1, 1, 0⟩ (runes "1234") := by
  refine ⟨?_, ?_, ?_, ?_, ?_, ?_, ?_, ?_, ?_, ?_, ?_, ?_, ?_, ?_, ?_, ?_, ?_, ?_, ?_, ?_, ?_⟩
  · show DeltaChecker.Reaches testDict [50] ⟨1, 0, 0, 0⟩ [49, 50]
    exact .insertion _ _ 49 _ _ _ (by decide) rfl (.matched _ _ 50 _ _ _ rfl (.terminal _ _ rfl))
  · show DeltaChecker.Reaches testDict [49, 51, 52] ⟨1, 0, 0, 0⟩ [49, 50, 51, 52]
    exact .matched _ _ 49 _ _ _ rfl (.insertion _ _ 50 _ _ _ (by decide) rfl (.matched _ _ 51 _ _ _ rfl (.matched _ _ 52 _ _ _ rfl (.terminal _ _ rfl))))
  · show DeltaChecker.Reaches testDict [51] ⟨2, 0, 0, 0⟩ [49, 50, 51]
    exact .insertion _ _ 49 _ _ _ (by decide) rfl (.insertion _ _ 50 _ _ _ (by decide) rfl (.matched _ _ 51 _ _ _ rfl (.terminal _ _ rfl)))
  · show DeltaChecker.Reaches testDict [49, 51] ⟨2, 0, 0, 0⟩ [49, 50, 51]
    exact .matched _ _ 49 _ _ _ rfl (.insertion _ _ 50 _ _ _ (by decide) rfl (.matched _ _ 51 _ _ _ rfl (.terminal _ _ rfl)))
  · show DeltaChecker.Reaches testDict [49, 50, 51, 51] ⟨0, 1, 0, 0⟩ [49, 50, 51]
    exact .matched _ _ 49 _ _ _ rfl (.matched _ _ 50 _ _ _ rfl (.matched _ _ 51 _ _ _ rfl (.deletion _ 51 _ _ _ (by decide) (.terminal _ _ rfl))))
  · show DeltaChecker.Reaches testDict [49, 50, 50] ⟨0, 1, 0, 0⟩ [49, 50]
    exact .matched _ _ 49 _ _ _ rfl (.matched _ _ 50 _ _ _ rfl (.deletion _ 50 _ _ _ (by decide) (.terminal _ _ rfl)))
  · show DeltaChecker.Reaches testDict [49, 50, 51, 52, 52] ⟨0, 1, 0, 0⟩ [49, 50, 51, 52]
    exact .matched _ _ 49 _ _ _ rfl (.matched _ _ 50 _ _ _ rfl (.matched _ _ 51 _ _ _ rfl (.matched _ _ 52 _ _ _ rfl (.deletion _ 52 _ _ _ (by decide) (.terminal _ _ rfl)))))
  · show DeltaChecker.Reaches testDict [49, 49, 50, 51, 52] ⟨0, 1, 0, 0⟩ [49, 50, 51, 52]
    exact .matched _ _ 49 _ _ _ rfl (.deletion _ 49 _ _ _ (by decide) (.matched _ _ 50 _ _ _ rfl (.matched _ _ 51 _ _ _ rfl (.matched _ _ 52 _ _ _ rfl (.terminal _ _ rfl)))))
  · show DeltaChecker.Reaches testDict [49, 51] ⟨0, 2, 0, 0⟩ [49]
    exact .matched _ _ 49 _ _ _ rfl (.deletion _ 51 _ _ _ (by decide) (.terminal _ _ rfl))
  · show DeltaChecker.Reaches testDict [49, 51, 51] ⟨0, 2, 0, 0⟩ [49]
    exact .matched _ _ 49 _ _ _ rfl (.deletion _ 51 _ _ _ (by decide) (.deletion _ 51 _ _ _ (by decide) (.terminal _ _ rfl)))
  · show DeltaChecker.Reaches testDict [49, 49, 50, 51, 51] ⟨0, 2, 0, 0⟩ [49, 50, 51]
    exact .matched _ _ 49 _ _ _ rfl (.deletion _ 49 _ _ _ (by decide) (.matched _ _ 50 _ _ _ rfl (.matched _ _ 51 _ _ _ rfl (.deletion _ 51 _ _ _ (by decide) (.terminal _ _ rfl)))))
  · show DeltaChecker.Reaches testDict [50, 49] ⟨0, 0, 1, 0⟩ [49, 50]
    exact .swap _ 50 49 _ _ _ (by decide) (.matched _ _ 49 _ _ _ rfl (.matched _ _ 50 _ _ _ rfl (.terminal _ _ rfl)))
  · show DeltaChecker.Reaches testDict [49, 50, 52, 51] ⟨0, 0, 1, 0⟩ [49, 50, 51, 52]
    exact .matched _ _ 49 _ _ _ rfl (.matched _ _ 50 _ _ _ rfl (.swap _ 52 51 _ _ _ (by decide) (.matched _ _ 51 _ _ _ rfl (.matched _ _ 52 _ _ _ rfl (.terminal _ _ rfl)))))
  · show DeltaChecker.Reaches testDict [50, 49] ⟨0, 0, 2, 0⟩ [49, 50]
    exact .swap _ 50 49 _ _ _ (by decide) (.matched _ _ 49 _ _ _ rfl (.matched _ _ 50 _ _ _ rfl (.terminal _ _ rfl)))
  · show DeltaChecker.Reaches testDict [49, 52, 50, 51] ⟨0, 0, 2, 0⟩ [49, 50, 51, 52]
    exact .matched _ _ 49 _ _ _ rfl (.swap _ 52 50 _ _ _ (by decide) (.matched _ _ 50 _ _ _ rfl (.swap _ 52 51 _ _ _ (by decide) (.matched _ _ 51 _ _ _ rfl (.matched _ _ 52 _ _ _ rfl (.terminal _ _ rfl))))))
  · show DeltaChecker.Reaches testDict [49, 51, 51] ⟨0, 0, 0, 1⟩ [49, 50, 51]
    exact .matched _ _ 49 _ _ _ rfl (.substitution _ _ 51 50 _ _ _ (by decide) (by decide) rfl (.matched _ _ 51 _ _ _ rfl (.terminal _ _ rfl)))
  · show DeltaChecker.Reaches testDict [49, 51, 50] ⟨1, 1, 1, 0⟩ [49, 50, 51]
    exact .matched _ _ 49 _ _ _ rfl (.swap _ 51 50 _ _ _ (by decide) (.matched _ _ 50 _ _ _ rfl (.matched _ _ 51 _ _ _ rfl (.terminal _ _ rfl))))
  · show DeltaChecker.Reaches testDict [50, 49, 52] ⟨1, 1, 1, 0⟩ [49, 50]
    exact .swap _ 50 49 _ _ _ (by decide) (.matched _ _ 49 _ _ _ rfl (.matched _ _ 50 _ _ _ rfl (.deletion _ 52 _ _ _ (by decide) (.terminal _ _ rfl))))
  · show DeltaChecker.Reaches testDict [49, 50, 51, 51, 52] ⟨1, 1, 1, 0⟩ [49, 50, 51, 52]
    exact .matched _ _ 49 _ _ _ rfl (.matched _ _ 50 _ _ _ rfl (.matched _ _ 51 _ _ _ rfl (.deletion _ 51 _ _ _ (by decide) (.matched _ _ 52 _ _ _ rfl (.terminal _ _ rfl)))))
  · show DeltaChecker.Reaches testDict [50, 51] ⟨1, 1, 1, 0⟩ [49, 50, 51]
    exact .insertion _ _ 49 _ _ _ (by decide) rfl (.matched _ _ 50 _ _ _ rfl (.matched _ _ 51 _ _ _ rfl (.terminal _ _ rfl)))
  · show DeltaChecker.Reaches testDict [50, 50, 51, 52] ⟨1, 1, 1, 0⟩ [49, 50, 51, 52]
    exact .insertion _ _ 49 _ _ _ (by decide) rfl (.matched _ _ 50 _ _ _ rfl (.deletion _ 50 _ _ _ (by decide) (.matched _ _ 51 _ _ _ rfl (.matched _ _ 52 _ _ _ rfl (.terminal _ _ rfl)))))

/-- The rows of the tests on which the search of spec §4.4, collecting every terminal
word and swapping by two matched characters, differs from the expected verdict:
"13" with two insertions, "1423" with two swaps, and "132", "214", "23" with the
combined budgets. -/
theorem search_differs_from_tests :
    DeltaChecker.IsMisspelled ⟨2, 0, 0, 0⟩ (runes "13") testDict
      = .returns (true, [runes "123", runes "1234"]) ∧
    DeltaChecker.IsMisspelled ⟨0, 0, 2, 0⟩ (runes "1423") testDict = .returns (false, []) ∧
    DeltaChecker.IsMisspelled ⟨1, 1, 1, 0⟩ (runes "132") testDict
      = .returns (true, [runes "123", runes "12", runes "1234"]) ∧
    DeltaChecker.IsMisspelled ⟨1, 1, 1, 0⟩ (runes "214") testDict
      = .returns (true, [runes "1234", runes "123", runes "12"]) ∧
    DeltaChecker.IsMisspelled ⟨1, 1, 1, 0⟩ (runes "23") testDict
      = .returns (true, [runes "123", runes "12"]) ∧
    runTests (DeltaChecker.IsMisspelled ⟨2, 0, 0, 0⟩) testDict
      TestDeltaCheckerInsertions_multiple = false ∧
    runTests (DeltaChecker.IsMisspelled ⟨0, 0, 2, 0⟩) testDict
      TestDeltaCheckerSwaps_multiple = false ∧
    runTests (DeltaChecker.IsMisspelled ⟨1, 1, 1, 0⟩) testDict
      TestDeltaCheckerCombine = false := by decide

/-- The word "214" on the modelled search: with an insertion and a swap only "1234" is
within the budgets, and with a deletion added the list is "1234", "123", "12", where
`TestDeltaCheckerCombine` expects "12" alone. -/
theorem search_on_214 :
    DeltaChecker.IsMisspelled ⟨1, 0, 1, 0⟩ (runes "214") testDict
      = .returns (true, [runes "1234"]) ∧
    DeltaChecker.IsMisspelled ⟨1, 1, 1, 0⟩ (runes "214") testDict
      = .returns (true, [runes "1234", runes "123", runes "12"]) ∧
    (⟨runes "214", true, [runes "12"]⟩ : test) ∈ TestDeltaCheckerCombine := by decide

/-! ### Claims on the checkers -/

/-- C5: for all budgets, a word the dictionary contains verbatim gets the verdict
`(false, [])` from `DeltaChecker.IsMisspelled`. -/
theorem DeltaChecker_exact_match (dc : DeltaChecker) (dict : Trie) (word : Word)
    (h : dict.Contains word = .returns true) :
    dc.IsMisspelled word dict = .returns (false, []) := by
  simp only [DeltaChecker.IsMisspelled, h]

/-- Witness of C5: "12" is in the dictionary of the tests and the dictionary word
"123" is one insertion away, yet the verdict is `(false, [])`. -/
theorem DeltaChecker_exact_match_witness :
    testDict.Contains (runes "12") = .returns true ∧
    DeltaChecker.Reaches testDict (runes "12") ⟨1, 1, 1, 0⟩ (runes "123") ∧
    DeltaChecker.IsMisspelled ⟨1, 1, 1, 0⟩ (runes "12") testDict = .returns (false, []) := by
  refine ⟨by decide, ?_,
    DeltaChecker_exact_match ⟨1, 1, 1, 0⟩ testDict (runes "12") (by decide)⟩
  show DeltaChecker.Reaches testDict [49, 50] ⟨1, 1, 1, 0⟩ [49, 50, 51]
  exact .matched _ _ 49 _ _ _ rfl
    (.matched _ _ 50 _ _ _ rfl
      (.insertion _ _ 51 _ _ _ (by decide) rfl (.terminal _ _ rfl)))

/-- C6: whenever `Contains(word)` returns, `StrictChecker` returns no suggestions and
reports misspelled exactly when `Contains(word)` is false. -/
theorem StrictChecker_iff_not_Contains (dict : Trie) (word : Word) (b : Bool)
    (h : dict.Contains word = .returns b) :
    ∃ m, StrictChecker word dict = .returns (m, []) ∧
      (m = true ↔ dict.Contains word = .returns false) := by
  refine ⟨!b, by simp only [StrictChecker, h], ?_⟩
  cases b <;> simp [h]

/-- Witness of C6: the word "0", whose character is outside the alphabet "1234", is
reported misspelled by `StrictChecker` on the dictionary of the tests. -/
theorem StrictChecker_iff_not_Contains_witness :
    testAlphabet.Index 48 = none ∧ runes "0" = [48] ∧
    testDict.Contains (runes "0") = .returns false ∧
    StrictChecker (runes "0") testDict = .returns (true, []) ∧
    ∃ m, StrictChecker (runes "0") testDict = .returns (m, []) ∧
      (m = true ↔ testDict.Contains (runes "0") = .returns false) :=
  ⟨by decide, by decide, by decide, by decide,
    StrictChecker_iff_not_Contains testDict (runes "0") false (by decide)⟩

/-- Counterexample to C8 as stated: a single child that returns `(false, ["12"])`, not
misspelled yet with a suggestion. No child reports misspelled, so `unionChecker`
returns `(false, [])`, and its list is not the concatenation of the children's
lists, which is `["12"]`. -/
theorem unionChecker_drops_unflagged_suggestions :
    [fun (_ : Word) (_ : Trie) => Run.returns ((false, [runes "12"]) : Verdict)].map
        (fun c => c (runes "1") testDict)
      = [((false, [runes "12"]) : Verdict)].map Run.returns ∧
    unionChecker [fun _ _ => .returns (false, [runes "12"])] (runes "1") testDict
      = .returns (false, []) ∧
    dedupFirst ([((false, [runes "12"]) : Verdict)].flatMap (fun v => v.2)) = [runes "12"] ∧
    ([] : List Word) ≠ [runes "12"] := by
  refine ⟨rfl, ?_, by decide, by decide⟩
  simp only [unionChecker, runAll]
  decide

/-- C8 (amended): when the children return the verdicts `vs` (in child order),
`unionChecker` reports misspelled exactly when some child does; then its suggestions
are the lists of all the children concatenated in child order with every later
duplicate removed; and when no child reports misspelled it returns `(false, [])`,
whatever the children's lists hold. -/
theorem unionChecker_any (checkers : List Checker) (word : Word) (dict : Trie)
    (vs : List Verdict)
    (hrun : checkers.map (fun c => c word dict) = vs.map Run.returns) :
    (vs.any (fun v => v.1) = true ↔ ∃ v ∈ vs, v.1 = true) ∧
    ((∃ v ∈ vs, v.1 = true) → unionChecker checkers word dict
      = .returns (true, dedupFirst (vs.flatMap (fun v => v.2)))) ∧
    (dedupFirst (vs.flatMap (fun v => v.2))).Nodup ∧
    ((∀ v ∈ vs, v.1 = false) → unionChecker checkers word dict = .returns (false, [])) := by
  have hr := runAll_of_map word dict checkers vs hrun
  refine ⟨List.any_eq_true, ?_, nodup_dedupFirst _, ?_⟩
  · intro hsome
    have hany : vs.any (fun v => v.1) = true := List.any_eq_true.mpr hsome
    simp only [unionChecker, hr, hany, if_true]
  · intro hnone
    have hany : vs.any (fun v => v.1) = false := by
      rw [List.any_eq_false]
      intro v hv
      simp [hnone v hv]
    simp only [unionChecker, hr, hany, Bool.false_eq_true, if_false]

/-- Witness of C8 (amended): the union of `DeltaChecker{AllowedSwaps: 1}` and
`DeltaChecker{AllowedIns: 1}` of `TestUnionChecker` on the word "132". -/
theorem unionChecker_any_witness :
    [DeltaChecker.IsMisspelled ⟨0, 0, 1, 0⟩, DeltaChecker.IsMisspelled ⟨1, 0, 0, 0⟩].map
        (fun c => c (runes "132") testDict)
      = [(true, [runes "123"]), (false, [])].map Run.returns ∧
    (∃ v ∈ [((true, [runes "123"]) : Verdict), (false, [])], v.1 = true) ∧
    unionChecker [DeltaChecker.IsMisspelled ⟨0, 0, 1, 0⟩, DeltaChecker.IsMisspelled ⟨1, 0, 0, 0⟩]
        (runes "132") testDict
      = .returns (true, dedupFirst
          ([((true, [runes "123"]) : Verdict), (false, [])].flatMap (fun v => v.2))) ∧
    dedupFirst ([((true, [runes "123"]) : Verdict), (false, [])].flatMap (fun v => v.2))
      = [runes "123"] := by
  have h : [DeltaChecker.IsMisspelled ⟨0, 0, 1, 0⟩, DeltaChecker.IsMisspelled ⟨1, 0, 0, 0⟩].map
        (fun c => c (runes "132") testDict)
      = [(true, [runes "123"]), (false, [])].map Run.returns := by decide
  have hsome : ∃ v ∈ [((true, [runes "123"]) : Verdict), (false, [])], v.1 = true :=
    ⟨(true, [runes "123"]), by simp, rfl⟩
  exact ⟨h, hsome,
    (unionChecker_any _ (runes "132") testDict [(true, [runes "123"]), (false, [])] h).2.1
      hsome, by decide⟩

/-- C9: when the children return the verdicts `vs`, `intersectChecker` reports
misspelled exactly when every child does; then its suggestions are the children's
lists concatenated with the duplicates removed, and otherwise the verdict is
`(false, [])`, whatever the children suggested. -/
theorem intersectChecker_all (checkers : List Checker) (word : Word) (dict : Trie)
    (vs : List Verdict)
    (hrun : checkers.map (fun c => c word dict) = vs.map Run.returns) :
    (vs.all (fun v => v.1) = true ↔ ∀ v ∈ vs, v.1 = true) ∧
    ((∀ v ∈ vs, v.1 = true) → intersectChecker checkers word dict
      = .returns (true, dedupFirst (vs.flatMap (fun v => v.2)))) ∧
    (dedupFirst (vs.flatMap (fun v => v.2))).Nodup ∧
    ((∃ v ∈ vs, v.1 = false) → intersectChecker checkers word dict = .returns (false, [])) := by
  have hr := runAll_of_map word dict checkers vs hrun
  refine ⟨List.all_eq_true, ?_, nodup_dedupFirst _, ?_⟩
  · intro hall
    have : vs.all (fun v => v.1) = true := List.all_eq_true.mpr hall
    simp only [intersectChecker, hr, this, if_true]
  · rintro ⟨v, hv, hv1⟩
    have : ¬ vs.all (fun v => v.1) = true := by
      intro hall
      have := List.all_eq_true.mp hall v hv
      rw [hv1] at this
      cases this
    simp [intersectChecker, hr, this]

/-- Witness of C9: `MinLengthChecker(4)` intersected with
`DeltaChecker{AllowedMods: 1}` on "133" gives `(false, [])`, although the fuzzy
checker alone returns `(true, ["123"])`. -/
theorem intersectChecker_all_witness :
    [MinLengthChecker 4, DeltaChecker.IsMisspelled ⟨0, 0, 0, 1⟩].map
        (fun c => c (runes "133") testDict)
      = [(false, []), (true, [runes "123"])].map Run.returns ∧
    DeltaChecker.IsMisspelled ⟨0, 0, 0, 1⟩ (runes "133") testDict
      = .returns (true, [runes "123"]) ∧
    intersectChecker [MinLengthChecker 4, DeltaChecker.IsMisspelled ⟨0, 0, 0, 1⟩]
      (runes "133") testDict = .returns (false, []) := by
  have h : [MinLengthChecker 4, DeltaChecker.IsMisspelled ⟨0, 0, 0, 1⟩].map
        (fun c => c (runes "133") testDict)
      = [(false, []), (true, [runes "123"])].map Run.returns := by decide
  exact ⟨h, by decide,
    (intersectChecker_all _ (runes "133") testDict [(false, []), (true, [runes "123"])] h).2.2.2
      ⟨(false, []), by simp, rfl⟩⟩

/-! ### Paths, the alphabet of the nodes and the bounds of `children` -/

theorem Uniform_walk (a : Alphabet) :
    ∀ (path : List (Fin 28)) (t n : Trie), Uniform a t → t.walk path = some n →
      Uniform a n := by
  intro path
  induction path with
  | nil =>
    intro t n hu h
    simp only [Trie.walk, Option.some.injEq] at h
    exact h ▸ hu
  | cons i path ih =>
    intro t n hu h
    cases hu with
    | mk ch tm hch =>
      simp only [Trie.walk, Trie.children] at h
      cases hc : ch i with
      | none => simp [hc] at h
      | some c =>
        simp only [hc] at h
        exact ih c n (hch i c hc) h

theorem Uniform_alphabet (a : Alphabet) (t : Trie) (hu : Uniform a t) : t.alphabet = a := by
  cases hu with
  | mk ch tm hch => rfl

/-- C13: when `NewTrie(words, a)` returns a trie, `Alphabet()` returns `a` on the root
and on every node reached from the root along any index sequence, so the `Index` that
`Contains` calls on a node it has descended to is the `Index` of `a`. -/
theorem NewTrie_Alphabet_everywhere (a : Alphabet) (words : List (List Rune)) (t : Trie)
    (e : Option String) (hnew : NewTrie words a = .returns (some t, e)) :
    t.Alphabet = a ∧
    ∀ (path : List (Fin 28)) (n : Trie), t.walk path = some n →
      n.Alphabet = a ∧ n.alphabet.Index = a.Index := by
  have hu : Uniform a t := loop_uniform a words _ t e (Uniform.fresh a) hnew
  refine ⟨Uniform_alphabet a t hu, fun path n h => ?_⟩
  have hn := Uniform_alphabet a n (Uniform_walk a path t n hu h)
  exact ⟨hn, by rw [hn]⟩

/-- Witness of C13: the trie of the test words over "1234" and its node for "12",
reached along the indices 0, 1. -/
theorem NewTrie_Alphabet_everywhere_witness :
    ∃ t, NewTrie testWords testAlphabet = .returns (some t, none) ∧
      (∃ n, t.walk [0, 1] = some n) ∧
      t.Alphabet = testAlphabet ∧
      ∀ (path : List (Fin 28)) (n : Trie), t.walk path = some n →
        n.Alphabet = testAlphabet ∧ n.alphabet.Index = testAlphabet.Index :=
  ⟨_, rfl, ⟨_, rfl⟩, NewTrie_Alphabet_everywhere testAlphabet testWords _ none rfl⟩

/-- C15: for an alphabet all of whose indices are below 28, the inner loop of `NewTrie`
never indexes `children` out of range, `NewTrie` does not panic, and `Contains` does
not panic on a trie `NewTrie` returned, whatever the word list and the queried rune
sequence. -/
theorem NewTrie_Contains_in_bounds (alphabet : Alphabet) (words : List (List Rune))
    (hlt : ∀ r i, alphabet.Index r = some i → i < 28) :
    (∀ (t : Trie) (letters : List Rune),
      insertLetters alphabet t letters = .unknownChar ∨
      ∃ t', insertLetters alphabet t letters = .done t') ∧
    NewTrie words alphabet ≠ .panics ∧
    ∀ (t : Trie) (e : Option String), NewTrie words alphabet = .returns (some t, e) →
      ∀ w, t.Contains w ≠ .panics := by
  refine ⟨fun t letters => ?_, ?_, fun t e hnew w => ?_⟩
  · obtain ⟨hbad, hgood⟩ := insertLetters_outcome alphabet hlt letters t
    by_cases h : ∀ r ∈ letters, alphabet.Index r ≠ none
    · exact Or.inr (hgood h)
    · push_neg at h
      exact Or.inl (hbad h)
  · obtain ⟨hbad, hgood⟩ := loop_outcome alphabet hlt words (Trie.fresh alphabet)
    by_cases h : ∀ w ∈ words, ∀ r ∈ w, alphabet.Index r ≠ none
    · obtain ⟨t, ht⟩ := hgood h
      unfold NewTrie
      rw [ht]
      simp
    · push_neg at h
      unfold NewTrie
      rw [hbad h]
      simp
  · obtain ⟨b, hb⟩ := Contains_returns alphabet hlt w t
      (loop_uniform alphabet words _ t e (Uniform.fresh alphabet) hnew)
    rw [hb]
    simp

/-- Witness of C15 on the alphabet "1234" and the words of the tests. -/
theorem NewTrie_Contains_in_bounds_witness :
    (∀ r i, testAlphabet.Index r = some i → i < 28) ∧
    NewTrie testWords testAlphabet ≠ .panics ∧
    ∀ (t : Trie) (e : Option String), NewTrie testWords testAlphabet = .returns (some t, e) →
      ∀ w, t.Contains w ≠ .panics :=
  ⟨alphabetOf_bounded "1234" (by decide),
    (NewTrie_Contains_in_bounds testAlphabet testWords
      (alphabetOf_bounded "1234" (by decide))).2⟩

/-! ### The simple checkers and the suggestion lists -/

/-- C11: whatever verdict one of the five checkers returns for a word and a
dictionary (the bounded fuzzy checker for any budgets, the union and the
intersection for any children, the exact-match checker, the length gate), its
suggestion list has no word twice. -/
theorem suggestions_Nodup (word : Word) (dict : Trie) :
    (∀ (dc : DeltaChecker) (m : Bool) (s : List Word),
      dc.IsMisspelled word dict = .returns (m, s) → s.Nodup) ∧
    (∀ (checkers : List Checker) (m : Bool) (s : List Word),
      unionChecker checkers word dict = .returns (m, s) → s.Nodup) ∧
    (∀ (checkers : List Checker) (m : Bool) (s : List Word),
      intersectChecker checkers word dict = .returns (m, s) → s.Nodup) ∧
    (∀ (m : Bool) (s : List Word), StrictChecker word dict = .returns (m, s) → s = []) ∧
    (∀ (n : Int) (m : Bool) (s : List Word),
      MinLengthChecker n word dict = .returns (m, s) → s = []) := by
  refine ⟨?_, ?_, ?_, ?_, ?_⟩
  · intro dc m s h
    cases hc : dict.Contains word with
    | panics => simp [DeltaChecker.IsMisspelled, hc] at h
    | returns c =>
      cases c with
      | true =>
        simp only [DeltaChecker.IsMisspelled, hc, Run.returns.injEq, Prod.mk.injEq] at h
        rw [← h.2]
        exact List.nodup_nil
      | false =>
        simp only [DeltaChecker.IsMisspelled, hc, Run.returns.injEq, Prod.mk.injEq] at h
        rw [← h.2]
        exact nodup_dedupFirst _
  · intro checkers m s h
    cases hr : runAll checkers word dict with
    | panics => simp [unionChecker, hr] at h
    | returns vs =>
      simp only [unionChecker, hr] at h
      split at h
      · simp only [Run.returns.injEq, Prod.mk.injEq] at h
        rw [← h.2]
        exact nodup_dedupFirst _
      · simp only [Run.returns.injEq, Prod.mk.injEq] at h
        rw [← h.2]
        exact List.nodup_nil
  · intro checkers m s h
    cases hr : runAll checkers word dict with
    | panics => simp [intersectChecker, hr] at h
    | returns vs =>
      simp only [intersectChecker, hr] at h
      split at h
      · simp only [Run.returns.injEq, Prod.mk.injEq] at h
        rw [← h.2]
        exact nodup_dedupFirst _
      · simp only [Run.returns.injEq, Prod.mk.injEq] at h
        rw [← h.2]
        exact List.nodup_nil
  · intro m s h
    cases hc : dict.Contains word with
    | panics => simp [StrictChecker, hc] at h
    | returns c =>
      simp only [StrictChecker, hc, Run.returns.injEq, Prod.mk.injEq] at h
      exact h.2.symm
  · intro n m s h
    simp only [MinLengthChecker, Run.returns.injEq, Prod.mk.injEq] at h
    exact h.2.symm

/-- Witness of C11: "132" with the budgets of `TestDeltaCheckerCombine`, where the
search reaches "123" along several paths and lists it once. -/
theorem suggestions_Nodup_witness :
    DeltaChecker.IsMisspelled ⟨1, 1, 1, 0⟩ (runes "132") testDict
      = .returns (true, [runes "123", runes "12", runes "1234"]) ∧
    2 ≤ (DeltaChecker.search testDict.Alphabet.Letters 5 testDict [] (runes "132")
      ⟨1, 1, 1, 0⟩).count (runes "123") ∧
    [runes "123", runes "12", runes "1234"].Nodup :=
  ⟨by decide, by decide,
    (suggestions_Nodup (runes "132") testDict).1 ⟨1, 1, 1, 0⟩ true _ (by decide)⟩

/-- C12: `MinLengthChecker(n)` returns no suggestions, reports misspelled exactly when
the word has at least `n` characters, and returns the same verdict for every
dictionary; with `n = 3`, "11" is not flagged and "111" is. -/
theorem MinLengthChecker_iff_length (n : Int) (word : Word) (dict dict' : Trie) :
    (∃ m, MinLengthChecker n word dict = .returns (m, []) ∧
      (m = true ↔ n ≤ (word.length : Int))) ∧
    MinLengthChecker n word dict' = MinLengthChecker n word dict ∧
    MinLengthChecker 3 (runes "11") dict = .returns (false, []) ∧
    MinLengthChecker 3 (runes "111") dict = .returns (true, []) := by
  refine ⟨⟨decide (n ≤ (word.length : Int)), rfl, by simp⟩, rfl, ?_, ?_⟩
  · simp only [MinLengthChecker, Run.returns.injEq, Prod.mk.injEq, and_true]
    decide
  · simp only [MinLengthChecker, Run.returns.injEq, Prod.mk.injEq, and_true]
    decide

/-! ### The paths of a built trie -/

theorem walk_fresh (a : Alphabet) (path : List (Fin 28)) (n : Trie)
    (h : (Trie.fresh a).walk path = some n) : path = [] := by
  cases path with
  | nil => rfl
  | cons i p => simp [Trie.walk, Trie.fresh, Trie.children] at h

theorem insertLetters_put (a : Alphabet) :
    ∀ (w : List Rune) (t : Trie),
      (∀ is, a.indices w = some is → insertLetters a t w = .done (t.put a is)) ∧
      (a.indices w = none → ∀ t', insertLetters a t w ≠ .done t') := by
  intro w
  induction w with
  | nil =>
    intro t
    cases t with
    | mk al ch tm =>
      refine ⟨fun is h => ?_, fun h => by simp [Alphabet.indices] at h⟩
      simp only [Alphabet.indices, Option.some.injEq] at h
      subst h
      rfl
  | cons l w ih =>
    intro t
    cases t with
    | mk al ch tm =>
      cases hi : a.Index l with
      | none =>
        refine ⟨fun is h => by simp [Alphabet.indices, hi] at h, fun _ t' => ?_⟩
        simp [insertLetters, hi]
      | some idx =>
        by_cases hb : idx < 28
        · obtain ⟨ihs, ihn⟩ := ih (match ch ⟨idx, hb⟩ with
            | none => Trie.fresh a
            | some child => child)
          cases hw : a.indices w with
          | none =>
            refine ⟨fun is h => by simp [Alphabet.indices, hi, hb, hw] at h, fun _ t' => ?_⟩
            simp only [insertLetters, hi, hb, dite_true]
            cases hins : insertLetters a (match ch ⟨idx, hb⟩ with
                | none => Trie.fresh a
                | some child => child) w with
            | outOfRange => simp
            | unknownChar => simp
            | done c => exact absurd hins (ihn hw c)
          | some js =>
            refine ⟨fun is h => ?_, fun h => by simp [Alphabet.indices, hi, hb, hw] at h⟩
            simp only [Alphabet.indices, hi, hb, dite_true, hw, Option.some.injEq] at h
            subst h
            simp only [insertLetters, hi, hb, dite_true, ihs js hw, Trie.put]
        · refine ⟨fun is h => by simp [Alphabet.indices, hi, hb] at h, fun _ t' => ?_⟩
          simp [insertLetters, hi, hb]

theorem walk_put_isSome (a : Alphabet) :
    ∀ (is : List (Fin 28)) (t : Trie) (path : List (Fin 28)),
      (∃ n, (t.put a is).walk path = some n) ↔ (∃ n, t.walk path = some n) ∨ path <+: is := by
  intro is
  induction is with
  | nil =>
    intro t path
    cases t with
    | mk al ch tm =>
      cases path with
      | nil => simp [Trie.walk]
      | cons i p => simp [Trie.put, Trie.walk, Trie.children]
  | cons j js ih =>
    intro t path
    cases t with
    | mk al ch tm =>
      cases path with
      | nil => simp [Trie.walk]
      | cons i p =>
        by_cases hij : i = j
        · subst hij
          simp only [Trie.put, Trie.walk, Trie.children, if_true, List.cons_prefix_cons,
            true_and]
          rw [ih]
          cases hc : ch i with
          | none =>
            constructor
            · rintro (⟨n, hn⟩ | h)
              · rw [walk_fresh a p n hn]
                exact Or.inr List.nil_prefix
              · exact Or.inr h
            · rintro (⟨n, hn⟩ | h)
              · cases hn
              · exact Or.inr h
          | some c => simp
        · simp [Trie.put, Trie.walk, Trie.children, hij, List.cons_prefix_cons]

theorem walk_put_terminates (a : Alphabet) :
    ∀ (is : List (Fin 28)) (t : Trie) (path : List (Fin 28)),
      (∃ n, (t.put a is).walk path = some n ∧ n.terminates = true) ↔
        (∃ n, t.walk path = some n ∧ n.terminates = true) ∨ path = is := by
  intro is
  induction is with
  | nil =>
    intro t path
    cases t with
    | mk al ch tm =>
      cases path with
      | nil => simp [Trie.put, Trie.walk, Trie.terminates]
      | cons i p => simp [Trie.put, Trie.walk, Trie.children]
  | cons j js ih =>
    intro t path
    cases t with
    | mk al ch tm =>
      cases path with
      | nil => simp [Trie.put, Trie.walk, Trie.terminates]
      | cons i p =>
        by_cases hij : i = j
        · subst hij
          simp only [Trie.put, Trie.walk, Trie.children, if_true, List.cons.injEq, true_and]
          rw [ih]
          cases hc : ch i with
          | none =>
            constructor
            · rintro (⟨n, hn, ht⟩ | h)
              · have hp := walk_fresh a p n hn
                subst hp
                simp only [Trie.walk, Option.some.injEq] at hn
                subst hn
                simp [Trie.fresh, Trie.terminates] at ht
              · exact Or.inr h
            · rintro (⟨n, hn, _⟩ | h)
              · cases hn
              · exact Or.inr h
          | some c => simp
        · simp [Trie.put, Trie.walk, Trie.children, hij]

theorem putAll_cons (a : Alphabet) (t : Trie) (w : List Rune) (words : List (List Rune)) :
    t.putAll a (w :: words) =
      Trie.putAll a (match a.indices w with
        | none => t
        | some is => t.put a is) words := by
  simp only [Trie.putAll, List.foldl_cons]

theorem loop_putAll (a : Alphabet) :
    ∀ (words : List (List Rune)) (t t' : Trie) (e : Option String),
      NewTrie.loop a t words = .returns (some t', e) →
      e = none ∧ t' = t.putAll a words ∧ ∀ w ∈ words, ∃ is, a.indices w = some is := by
  intro words
  induction words with
  | nil =>
    intro t t' e h
    simp only [NewTrie.loop, Run.returns.injEq, Prod.mk.injEq, Option.some.injEq] at h
    exact ⟨h.2.symm, h.1.symm, fun w hw => by simp at hw⟩
  | cons v words ih =>
    intro t t' e h
    obtain ⟨hsome, hnone⟩ := insertLetters_put a v t
    cases hv : a.indices v with
    | none =>
      cases hins : insertLetters a t v with
      | outOfRange => simp [NewTrie.loop, hins] at h
      | unknownChar => simp [NewTrie.loop, hins] at h
      | done t1 => exact absurd hins (hnone hv t1)
    | some is =>
      simp only [NewTrie.loop, hsome is hv] at h
      obtain ⟨he, ht, hall⟩ := ih _ t' e h
      refine ⟨he, ?_, ?_⟩
      · rw [putAll_cons, hv]
        exact ht
      · intro w hw
        rcases List.mem_cons.mp hw with rfl | hw'
        · exact ⟨is, hv⟩
        · exact hall w hw'

theorem loop_of_indices (a : Alphabet) :
    ∀ (words : List (List Rune)) (t : Trie),
      (∀ w ∈ words, ∃ is, a.indices w = some is) →
      NewTrie.loop a t words = .returns (some (t.putAll a words), none) := by
  intro words
  induction words with
  | nil => intro t _; rfl
  | cons v words ih =>
    intro t h
    obtain ⟨is, hv⟩ := h v (by simp)
    rw [putAll_cons, hv]
    simp only [NewTrie.loop, (insertLetters_put a v t).1 is hv]
    exact ih _ (fun w hw => h w (by simp [hw]))

theorem putAll_walk_isSome (a : Alphabet) :
    ∀ (words : List (List Rune)) (t : Trie) (path : List (Fin 28)),
      (∃ n, (t.putAll a words).walk path = some n) ↔
        (∃ n, t.walk path = some n) ∨
        ∃ w ∈ words, ∃ is, a.indices w = some is ∧ path <+: is := by
  intro words
  induction words with
  | nil => intro t path; simp [Trie.putAll]
  | cons v words ih =>
    intro t path
    rw [putAll_cons, ih]
    cases hv : a.indices v with
    | none =>
      simp only [List.mem_cons, exists_eq_or_imp, hv, false_and, exists_false, false_or,
        reduceCtorEq]
    | some is =>
      simp only [walk_put_isSome, List.mem_cons, exists_eq_or_imp, hv, Option.some.injEq,
        exists_eq_left', or_assoc]

theorem putAll_walk_terminates (a : Alphabet) :
    ∀ (words : List (List Rune)) (t : Trie) (path : List (Fin 28)),
      (∃ n, (t.putAll a words).walk path = some n ∧ n.terminates = true) ↔
        (∃ n, t.walk path = some n ∧ n.terminates = true) ∨
        ∃ w ∈ words, a.indices w = some path := by
  intro words
  induction words with
  | nil => intro t path; simp [Trie.putAll]
  | cons v words ih =>
    intro t path
    rw [putAll_cons, ih]
    cases hv : a.indices v with
    | none =>
      simp only [List.mem_cons, exists_eq_or_imp, hv, false_or, reduceCtorEq]
    | some is =>
      simp only [walk_put_terminates, List.mem_cons, exists_eq_or_imp, hv, Option.some.injEq,
        or_assoc]
      constructor
      · rintro (h | h | h)
        · exact Or.inl h
        · exact Or.inr (Or.inl h.symm)
        · exact Or.inr (Or.inr h)
      · rintro (h | h | h)
        · exact Or.inl h
        · exact Or.inr (Or.inl h.symm)
        · exact Or.inr (Or.inr h)

theorem walk_append :
    ∀ (p q : List (Fin 28)) (t : Trie),
      t.walk (p ++ q) = (t.walk p).bind (fun n => n.walk q) := by
  intro p
  induction p with
  | nil => intro q t; simp [Trie.walk]
  | cons i p ih =>
    intro q t
    simp only [List.cons_append, Trie.walk]
    cases t.children i with
    | none => rfl
    | some c => exact ih q c

theorem NewTrie_putAll (a : Alphabet) (words : List (List Rune)) (t : Trie)
    (e : Option String) (hnew : NewTrie words a = .returns (some t, e)) :
    e = none ∧ t = (Trie.fresh a).putAll a words ∧
      ∀ w ∈ words, ∃ is, a.indices w = some is :=
  loop_putAll a words (Trie.fresh a) t e hnew

theorem walk_fresh_iff (a : Alphabet) (path : List (Fin 28)) :
    (∃ n, (Trie.fresh a).walk path = some n) ↔ path = [] := by
  constructor
  · rintro ⟨n, hn⟩
    exact walk_fresh a path n hn
  · rintro rfl
    exact ⟨_, rfl⟩

theorem walk_fresh_terminates (a : Alphabet) (path : List (Fin 28)) :
    ¬ ∃ n, (Trie.fresh a).walk path = some n ∧ n.terminates = true := by
  rintro ⟨n, hn, ht⟩
  have hp := walk_fresh a path n hn
  subst hp
  simp only [Trie.walk, Option.some.injEq] at hn
  subst hn
  simp [Trie.fresh, Trie.terminates] at ht

/-- Counterexample to C17 as stated: in the trie of the single word "12" over the
alphabet "1234" the path for the index sequence 0 exists (the node of the prefix
"1"), and no inserted word has exactly that index sequence ("12" has 0, 1). -/
theorem path_of_proper_prefix :
    ∃ t, NewTrie [runes "12"] testAlphabet = .returns (some t, none) ∧
      testAlphabet.indices (runes "12") = some [0, 1] ∧
      (∃ n, t.walk [0] = some n) ∧
      ¬ ∃ w ∈ [runes "12"], testAlphabet.indices w = some [0] :=
  ⟨_, rfl, by decide, ⟨_, rfl⟩, by decide⟩

/-- C17 (amended): in a trie built by `NewTrie`, the path for an index sequence exists
exactly when the sequence is empty or a prefix of the index sequence of some inserted
word, and it ends in a node with `terminates` set exactly when some inserted word has
that very index sequence. -/
theorem NewTrie_path_iff_prefix (a : Alphabet) (words : List (List Rune)) (t : Trie)
    (e : Option String) (hnew : NewTrie words a = .returns (some t, e))
    (path : List (Fin 28)) :
    ((∃ n, t.walk path = some n) ↔
      path = [] ∨ ∃ w ∈ words, ∃ is, a.indices w = some is ∧ path <+: is) ∧
    ((∃ n, t.walk path = some n ∧ n.terminates = true) ↔
      ∃ w ∈ words, a.indices w = some path) := by
  obtain ⟨_, ht, _⟩ := NewTrie_putAll a words t e hnew
  subst ht
  constructor
  · rw [putAll_walk_isSome, walk_fresh_iff]
  · rw [putAll_walk_terminates]
    simp only [walk_fresh_terminates, false_or]

/-- Witness of C17 (amended): the trie of the test words and the index sequence
0, 1, 2 of "123". -/
theorem NewTrie_path_iff_prefix_witness :
    ∃ t, NewTrie testWords testAlphabet = .returns (some t, none) ∧
      ((∃ n, t.walk [0, 1, 2] = some n) ↔
        ([0, 1, 2] : List (Fin 28)) = [] ∨
          ∃ w ∈ testWords, ∃ is, testAlphabet.indices w = some is ∧ [0, 1, 2] <+: is) ∧
      ((∃ n, t.walk [0, 1, 2] = some n ∧ n.terminates = true) ↔
        ∃ w ∈ testWords, testAlphabet.indices w = some [0, 1, 2]) :=
  ⟨_, rfl, NewTrie_path_iff_prefix testAlphabet testWords _ none rfl [0, 1, 2]⟩

/-- Counterexample to C18 as stated: the trie of the empty word list has its root, the
path of the empty index sequence, although no word was inserted. -/
theorem root_of_empty_list :
    ∃ t, NewTrie [] testAlphabet = .returns (some t, none) ∧
      (∃ n, t.walk [] = some n) ∧
      ¬ ∃ w ∈ ([] : List (List Rune)), ∃ is,
        testAlphabet.indices w = some is ∧ ([] : List (Fin 28)) <+: is :=
  ⟨_, rfl, ⟨_, rfl⟩, by simp⟩

/-- C18 (amended): in a trie built by `NewTrie` there are no dead branches: for an
index sequence that is not empty, or when the word list is not empty, the path
exists exactly when the sequence is a prefix of the index sequence of some inserted
word; and a node other than the root that has no children has `terminates` set. -/
theorem NewTrie_no_dead_branches (a : Alphabet) (words : List (List Rune)) (t : Trie)
    (e : Option String) (hnew : NewTrie words a = .returns (some t, e)) :
    (∀ path : List (Fin 28), path ≠ [] ∨ words ≠ [] →
      ((∃ n, t.walk path = some n) ↔
        ∃ w ∈ words, ∃ is, a.indices w = some is ∧ path <+: is)) ∧
    (∀ (path : List (Fin 28)) (n : Trie), path ≠ [] → t.walk path = some n →
      (∀ i, n.children i = none) → n.terminates = true) := by
  obtain ⟨_, _, hall⟩ := NewTrie_putAll a words t e hnew
  have hchar := NewTrie_path_iff_prefix a words t e hnew
  constructor
  · intro path hne
    rw [(hchar path).1]
    constructor
    · rintro (rfl | h)
      · rcases hne with hne | hne
        · exact absurd rfl hne
        · obtain ⟨w, ws, rfl⟩ := List.exists_cons_of_ne_nil hne
          obtain ⟨is, his⟩ := hall w (by simp)
          exact ⟨w, by simp, is, his, List.nil_prefix⟩
      · exact h
    · exact Or.inr
  · intro path n hne hwalk hleaf
    rcases ((hchar path).1.mp ⟨n, hwalk⟩) with rfl | ⟨w, hw, is, his, q, hq⟩
    · exact absurd rfl hne
    · cases q with
      | nil =>
        rw [List.append_nil] at hq
        subst hq
        obtain ⟨n', hn', ht⟩ := (hchar path).2.mpr ⟨w, hw, his⟩
        rw [hwalk] at hn'
        cases hn'
        exact ht
      | cons j q =>
        have hpre : path ++ [j] <+: is := ⟨q, by rw [← hq]; simp⟩
        obtain ⟨m, hm⟩ := (hchar (path ++ [j])).1.mpr (Or.inr ⟨w, hw, is, his, hpre⟩)
        rw [walk_append, hwalk] at hm
        simp only [Option.bind, Trie.walk, hleaf j] at hm
        cases hm

/-- Witness of C18 (amended): in the trie of the test words the node of "1234", at
the index sequence 0, 1, 2, 3, has no children and has `terminates` set. -/
theorem NewTrie_no_dead_branches_witness :
    ∃ t n, NewTrie testWords testAlphabet = .returns (some t, none) ∧
      t.walk [0, 1, 2, 3] = some n ∧ (∀ i, n.children i = none) ∧
      n.terminates = true := by
  refine ⟨_, _, rfl, rfl, fun _ => rfl, ?_⟩
  exact (NewTrie_no_dead_branches testAlphabet testWords _ none rfl).2 [0, 1, 2, 3] _
    (by simp) rfl (fun _ => rfl)

/-! ### The trie as a function of the set of words -/

theorem put_idem (a : Alphabet) :
    ∀ (is : List (Fin 28)) (t : Trie), (t.put a is).put a is = t.put a is := by
  intro is
  induction is with
  | nil =>
    intro t
    cases t with
    | mk al ch tm => rfl
  | cons i is ih =>
    intro t
    cases t with
    | mk al ch tm =>
      simp only [Trie.put, if_true, Trie.mk.injEq, true_and, and_true]
      funext j
      by_cases hj : j = i
      · simp only [hj, if_true, ih]
      · simp only [hj, if_false]

theorem put_comm (a : Alphabet) :
    ∀ (is js : List (Fin 28)) (t : Trie),
      (t.put a is).put a js = (t.put a js).put a is := by
  intro is
  induction is with
  | nil =>
    intro js t
    cases t with
    | mk al ch tm =>
      cases js with
      | nil => rfl
      | cons j js => rfl
  | cons i is ih =>
    intro js t
    cases t with
    | mk al ch tm =>
      cases js with
      | nil => rfl
      | cons j js =>
        simp only [Trie.put, if_true, Trie.mk.injEq, true_and, and_true]
        funext k
        by_cases hij : i = j
        · subst hij
          by_cases hk : k = i
          · simp only [hk, if_true, ih]
          · simp only [hk, if_false]
        · have hji : ¬ j = i := fun h => hij h.symm
          by_cases hki : k = i
          · subst hki
            simp only [hij, hji, if_true, if_false]
          · by_cases hkj : k = j
            · subst hkj
              simp only [hij, hji, if_true, if_false]
            · simp only [hki, hkj, if_false]

theorem putAll_put (a : Alphabet) (is : List (Fin 28)) :
    ∀ (words : List (List Rune)) (t : Trie),
      (t.put a is).putAll a words = (t.putAll a words).put a is := by
  intro words
  induction words with
  | nil => intro t; rfl
  | cons v words ih =>
    intro t
    rw [putAll_cons, putAll_cons]
    cases hv : a.indices v with
    | none => exact ih t
    | some js =>
      simp only
      rw [put_comm a is js t]
      exact ih _

theorem putAll_absorbs (a : Alphabet) (w : List Rune) (is : List (Fin 28))
    (hw : a.indices w = some is) :
    ∀ (words : List (List Rune)) (t : Trie), w ∈ words →
      (t.putAll a words).put a is = t.putAll a words := by
  intro words
  induction words with
  | nil => intro t h; simp at h
  | cons v words ih =>
    intro t h
    rw [putAll_cons]
    rcases List.mem_cons.mp h with rfl | h'
    · simp only [hw]
      rw [← putAll_put, put_idem]
    · exact ih _ h'

theorem putAll_append (a : Alphabet) (l1 l2 : List (List Rune)) (t : Trie) :
    t.putAll a (l1 ++ l2) = (t.putAll a l1).putAll a l2 := by
  simp only [Trie.putAll, List.foldl_append]

theorem putAll_of_absorbed (a : Alphabet) :
    ∀ (words : List (List Rune)) (s : Trie),
      (∀ w ∈ words, ∀ is, a.indices w = some is → s.put a is = s) →
      s.putAll a words = s := by
  intro words
  induction words with
  | nil => intro s _; rfl
  | cons v words ih =>
    intro s h
    rw [putAll_cons]
    cases hv : a.indices v with
    | none => exact ih s (fun w hw => h w (by simp [hw]))
    | some is =>
      simp only
      rw [h v (by simp) is hv]
      exact ih s (fun w hw => h w (by simp [hw]))

theorem putAll_swap (a : Alphabet) :
    ∀ (l2 l1 : List (List Rune)) (t : Trie),
      (t.putAll a l1).putAll a l2 = (t.putAll a l2).putAll a l1 := by
  intro l2
  induction l2 with
  | nil => intro l1 t; rfl
  | cons v l2 ih =>
    intro l1 t
    rw [putAll_cons, putAll_cons]
    cases hv : a.indices v with
    | none => exact ih l1 t
    | some is =>
      simp only
      rw [← putAll_put, ih]

theorem putAll_same_set (a : Alphabet) (l1 l2 : List (List Rune)) (t : Trie)
    (hset : ∀ w, w ∈ l1 ↔ w ∈ l2) : t.putAll a l1 = t.putAll a l2 := by
  have h1 : t.putAll a (l1 ++ l2) = t.putAll a l1 := by
    rw [putAll_append]
    exact putAll_of_absorbed a l2 _
      (fun w hw is his => putAll_absorbs a w is his l1 t ((hset w).mpr hw))
  have h2 : t.putAll a (l2 ++ l1) = t.putAll a l2 := by
    rw [putAll_append]
    exact putAll_of_absorbed a l1 _
      (fun w hw is his => putAll_absorbs a w is his l2 t ((hset w).mp hw))
  rw [← h1, ← h2, putAll_append, putAll_append, putAll_swap]

theorem insertLetters_outOfRange (a : Alphabet) :
    ∀ (w : List Rune) (t : Trie), (∀ r ∈ w, a.Index r ≠ none) → a.indices w = none →
      insertLetters a t w = .outOfRange := by
  intro w
  induction w with
  | nil => intro t _ h; simp [Alphabet.indices] at h
  | cons l w ih =>
    intro t hmap hnone
    cases t with
    | mk al ch tm =>
      obtain ⟨idx, hidx⟩ := Option.ne_none_iff_exists'.mp (hmap l (by simp))
      by_cases hb : idx < 28
      · have hw : a.indices w = none := by
          cases hw : a.indices w with
          | none => rfl
          | some is => simp [Alphabet.indices, hidx, hb, hw] at hnone
        simp only [insertLetters, hidx, hb, dite_true,
          ih _ (fun r hr => hmap r (by simp [hr])) hw]
      · simp [insertLetters, hidx, hb]

theorem loop_panics (a : Alphabet) :
    ∀ (words : List (List Rune)) (t : Trie),
      (∀ w ∈ words, ∀ r ∈ w, a.Index r ≠ none) → (∃ w ∈ words, a.indices w = none) →
      NewTrie.loop a t words = .panics := by
  intro words
  induction words with
  | nil => intro t _ h; simp at h
  | cons v words ih =>
    intro t hmap hex
    cases hv : a.indices v with
    | none =>
      simp only [NewTrie.loop, insertLetters_outOfRange a v t (hmap v (by simp)) hv]
    | some is =>
      simp only [NewTrie.loop, (insertLetters_put a v t).1 is hv]
      refine ih _ (fun w hw => hmap w (by simp [hw])) ?_
      obtain ⟨w, hw, hwn⟩ := hex
      rcases List.mem_cons.mp hw with rfl | hw'
      · rw [hv] at hwn
        cases hwn
      · exact ⟨w, hw', hwn⟩

theorem NewTrie_eq_of_same_set (a : Alphabet) (l1 l2 : List (List Rune))
    (hover : ∀ w ∈ l1, ∀ r ∈ w, a.Index r ≠ none) (hset : ∀ w, w ∈ l1 ↔ w ∈ l2) :
    NewTrie l1 a = NewTrie l2 a := by
  have hover2 : ∀ w ∈ l2, ∀ r ∈ w, a.Index r ≠ none :=
    fun w hw => hover w ((hset w).mpr hw)
  unfold NewTrie
  by_cases hall : ∀ w ∈ l1, ∃ is, a.indices w = some is
  · have hall2 : ∀ w ∈ l2, ∃ is, a.indices w = some is :=
      fun w hw => hall w ((hset w).mpr hw)
    rw [loop_of_indices a l1 _ hall, loop_of_indices a l2 _ hall2,
      putAll_same_set a l1 l2 _ hset]
  · push_neg at hall
    obtain ⟨w, hw, hwn⟩ := hall
    have hnone : a.indices w = none := by
      cases h : a.indices w with
      | none => rfl
      | some is => exact absurd h (hwn is)
    rw [loop_panics a l1 _ hover ⟨w, hw, hnone⟩,
      loop_panics a l2 _ hover2 ⟨w, (hset w).mp hw, hnone⟩]

/-- C19: for two word lists over the alphabet that contain the same words, in any
order and with any repetitions, `NewTrie` has the same outcome, so the tries it
returns are equal and `Contains` answers alike on every rune sequence; a list with a
word repeated at its end gives the same trie, and the inner loop run a second time
for the same word leaves the node as it is. -/
theorem NewTrie_same_words (a : Alphabet) (words words' : List (List Rune))
    (hover : ∀ w ∈ words, ∀ r ∈ w, a.Index r ≠ none)
    (hset : ∀ w, w ∈ words ↔ w ∈ words') :
    NewTrie words a = NewTrie words' a ∧
    (∀ (t t' : Trie) (e e' : Option String), NewTrie words a = .returns (some t, e) →
      NewTrie words' a = .returns (some t', e') →
      t = t' ∧ ∀ w, t.Contains w = t'.Contains w) ∧
    (∀ w ∈ words, NewTrie (words ++ [w]) a = NewTrie words a) ∧
    (∀ (t t1 : Trie) (w : List Rune), insertLetters a t w = .done t1 →
      insertLetters a t1 w = .done t1) := by
  have heq := NewTrie_eq_of_same_set a words words' hover hset
  refine ⟨heq, ?_, ?_, ?_⟩
  · intro t t' e e' h h'
    rw [heq, h'] at h
    simp only [Run.returns.injEq, Prod.mk.injEq, Option.some.injEq] at h
    obtain ⟨ht, _⟩ := h
    subst ht
    exact ⟨rfl, fun _ => rfl⟩
  · intro w hw
    refine (NewTrie_eq_of_same_set a words (words ++ [w]) hover ?_).symm
    intro v
    simp only [List.mem_append, List.mem_singleton]
    constructor
    · exact Or.inl
    · rintro (h | rfl)
      · exact h
      · exact hw
  · intro t t1 w h
    obtain ⟨hsome, hnone⟩ := insertLetters_put a w t
    cases hw : a.indices w with
    | none => exact absurd h (hnone hw t1)
    | some is =>
      rw [hsome is hw] at h
      simp only [Inserted.done.injEq] at h
      subst h
      rw [(insertLetters_put a w _).1 is hw, put_idem]

/-- Witness of C19: the words of the tests, and the same words in another order with
"1" and "123" repeated. -/
theorem NewTrie_same_words_witness :
    (∀ w ∈ testWords, ∀ r ∈ w, testAlphabet.Index r ≠ none) ∧
    (∀ w, w ∈ testWords ↔
      w ∈ [runes "1234", runes "1", runes "123", runes "12", runes "1", runes "123"]) ∧
    NewTrie testWords testAlphabet =
      NewTrie [runes "1234", runes "1", runes "123", runes "12", runes "1", runes "123"]
        testAlphabet := by
  have hset : ∀ w, w ∈ testWords ↔
      w ∈ [runes "1234", runes "1", runes "123", runes "12", runes "1", runes "123"] := by
    intro w
    simp only [testWords, List.mem_cons, List.mem_singleton, List.not_mem_nil, or_false]
    tauto
  exact ⟨testWords_in_testAlphabet, hset,
    (NewTrie_same_words testAlphabet testWords _ testWords_in_testAlphabet hset).1⟩

/-! ### Termination of the bounded search -/

theorem Step_decreases (s s' : DeltaChecker.State) (h : DeltaChecker.Step s s') :
    (s'.2.2 = s.2.2 ∧ s'.2.1.length < s.2.1.length) ∨
    (s'.2.2.total < s.2.2.total ∧ s'.2.2.Within s.2.2 ∧ s'.2.1.length ≤ s.2.1.length) := by
  cases h with
  | matched node n c rest b hc => exact Or.inl ⟨rfl, by simp⟩
  | substitution node n c x rest b hpos hx hc =>
    refine Or.inr ⟨?_, ⟨le_refl _, le_refl _, le_refl _, Nat.sub_le _ _⟩, by simp⟩
    simp only [DeltaChecker.total]
    omega
  | insertion node n x rest b hpos hc =>
    refine Or.inr ⟨?_, ⟨Nat.sub_le _ _, le_refl _, le_refl _, le_refl _⟩, le_refl _⟩
    simp only [DeltaChecker.total]
    omega
  | deletion node c rest b hpos =>
    refine Or.inr ⟨?_, ⟨le_refl _, Nat.sub_le _ _, le_refl _, le_refl _⟩, by simp⟩
    simp only [DeltaChecker.total]
    omega
  | swap node n m c d rest b hpos hd hc =>
    refine Or.inr ⟨?_, ⟨le_refl _, le_refl _, Nat.sub_le _ _, le_refl _⟩, ?_⟩
    · simp only [DeltaChecker.total]
      omega
    · simp only [List.length_cons]
      omega

theorem Step_measure (s s' : DeltaChecker.State) (h : DeltaChecker.Step s s') :
    s'.2.2.total + s'.2.1.length < s.2.2.total + s.2.1.length := by
  rcases Step_decreases s s' h with ⟨hb, hl⟩ | ⟨hb, _, hl⟩
  · rw [hb]
    omega
  · omega

theorem chain_bound (f : Nat → DeltaChecker.State) :
    ∀ n : Nat, (∀ i < n, DeltaChecker.Step (f i) (f (i + 1))) →
      (f n).2.2.total + (f n).2.1.length + n ≤ (f 0).2.2.total + (f 0).2.1.length := by
  intro n
  induction n with
  | zero => intro _; simp
  | succ n ih =>
    intro h
    have h1 := ih (fun i hi => h i (by omega))
    have h2 := Step_measure (f n) (f (n + 1)) (h n (by omega))
    omega

/-- C14: the search of spec §4.4 terminates without a visited set. Along a transition
either the budgets stay and the word gets shorter (the free match), or the budgets
decrease, in total and in no component increasing, and the word gets no longer (the
non-free transitions); hence a path of `n` transitions from a state has `n` at most
the budgets plus the length of the word of that state, no infinite path exists, and
the search function returns the same list for every depth bound beyond the one
`DeltaChecker.IsMisspelled` gives it. -/
theorem DeltaChecker_search_terminates :
    (∀ s s' : DeltaChecker.State, DeltaChecker.Step s s' →
      (s'.2.2 = s.2.2 ∧ s'.2.1.length < s.2.1.length) ∨
      (s'.2.2.total < s.2.2.total ∧ s'.2.2.Within s.2.2 ∧
        s'.2.1.length ≤ s.2.1.length)) ∧
    (∀ (f : Nat → DeltaChecker.State) (n : Nat),
      (∀ i < n, DeltaChecker.Step (f i) (f (i + 1))) →
      n ≤ (f 0).2.2.total + (f 0).2.1.length) ∧
    (¬ ∃ f : Nat → DeltaChecker.State, ∀ i, DeltaChecker.Step (f i) (f (i + 1))) ∧
    (∀ (dc : DeltaChecker) (dict : Trie) (word : Word) (k : Nat),
      DeltaChecker.search dict.Alphabet.Letters (dc.AllowedIns + word.length + 1 + k)
          dict [] word dc
        = DeltaChecker.search dict.Alphabet.Letters (dc.AllowedIns + word.length + 1)
          dict [] word dc) := by
  refine ⟨Step_decreases, ?_, ?_, ?_⟩
  · intro f n h
    have := chain_bound f n h
    omega
  · rintro ⟨f, hf⟩
    have := chain_bound f ((f 0).2.2.total + (f 0).2.1.length + 1) (fun i _ => hf i)
    omega
  · intro dc dict word k
    exact search_fuel_enough _ k _ dict [] word dc (by omega)

/-- Witness of C14: the insertion of '1' in front of the word "2" on the dictionary of
the tests is a transition, and it lowers the budgets from 1 to 0. -/
theorem DeltaChecker_search_terminates_witness :
    ∃ n : Trie, DeltaChecker.Step (testDict, runes "2", ⟨1, 0, 0, 0⟩)
        (n, runes "2", ⟨0, 0, 0, 0⟩) ∧
      (DeltaChecker.total ⟨0, 0, 0, 0⟩ < DeltaChecker.total ⟨1, 0, 0, 0⟩ ∧
        DeltaChecker.Within ⟨0, 0, 0, 0⟩ ⟨1, 0, 0, 0⟩ ∧
        (runes "2").length ≤ (runes "2").length) := by
  have hstep : ∃ n : Trie, DeltaChecker.Step (testDict, runes "2", ⟨1, 0, 0, 0⟩)
      (n, runes "2", ⟨0, 0, 0, 0⟩) :=
    ⟨_, .insertion testDict _ 49 (runes "2") ⟨1, 0, 0, 0⟩ (by decide) rfl⟩
  obtain ⟨n, hn⟩ := hstep
  refine ⟨n, hn, ?_⟩
  rcases DeltaChecker_search_terminates.1 _ _ hn with ⟨hb, _⟩ | h
  · simp only [DeltaChecker.mk.injEq] at hb
    omega
  · exact h

end Gospell
